import Mathlib

/-!
# Invitation protocol of tinc (`src/invitation.c`)

A shallow embedding of the line scanner, the configuration stream provisioner
(`finalize_join`), the joiner client (`cmd_join`) and the issuer side helpers
(`get_my_hostname` and `cmd_invite` with its expiry sweep and key step),
followed by theorems about them.

Conventions.
* A C string is the list of its characters before the terminating NUL; a
  `char *` that may be `NULL` is an `Option (List Char)`.
* Functions of the C library keep their names.  Those that return an `int`
  used only as a truth value (`strcasecmp`, `strcmp`) return the `Bool`
  "the result is non-zero", so that conditions read as in the source.
* Loops over the received text carry a fuel argument; `finalize_join` supplies
  enough fuel itself and the theorems are about `finalize_join` as a whole.
* Everything the source calls but does not define (the file system, the key
  generators, the secure channel, `check_id`, ...) is a field of an
  environment structure.
-/

namespace Invitation

/-! ## C library -/

/-- Text of a string literal as a C string. -/
def cs (s : String) : List Char := s.toList

/-- View of a buffer as a C string: the characters before the first NUL. -/
def cstr (buf : List Char) : List Char :=
  buf.takeWhile (fun c => c ≠ '\x00')

/-- Length of the initial segment of `s` made of characters not in `reject`. -/
def strcspn (s reject : List Char) : Nat :=
  (s.takeWhile (fun c => !reject.contains c)).length

/-- Length of the initial segment of `s` made of characters in `accept`. -/
def strspn (s accept : List Char) : Nat :=
  (s.takeWhile (fun c => accept.contains c)).length

/-- Case-insensitive comparison in the C locale; `true` when the strings differ. -/
def strcasecmp (a b : List Char) : Bool :=
  a.map Char.toLower != b.map Char.toLower

/-- Comparison of at most `n` characters, case-insensitive; `true` when they differ. -/
def strncasecmp (a b : List Char) (n : Nat) : Bool :=
  strcasecmp (a.take n) (b.take n)

/-- Exact comparison; `true` when the strings differ. -/
def strcmp (a b : List Char) : Bool :=
  a != b

/-- Printable characters of the C locale: space up to tilde. -/
def isprint (c : Char) : Bool :=
  decide (32 ≤ c.toNat) && decide (c.toNat ≤ 126)

/-- The directory separator `SLASH`. -/
def SLASH : List Char := cs "/"

/-! ## Line scanner -/

/-- What `get_line` returns: `NULL`, a line, or it does not return (`abort()`). -/
inductive Line where
  | null : Line
  | abort : Line
  | some : List Char → Line
  deriving DecidableEq, Repr

/-- Size of the static line buffer of `get_line` and of `value` in `grep`. -/
def LINE_SIZE : Nat := 1024

/-- Model of `get_line(&data)`: the result and the new value of `*data`. -/
def get_line (data : Option (List Char)) : Line × Option (List Char) :=
  match data with
  | none => (Line.null, none)
  | some [] => (Line.null, none)
  | some (c :: rest) =>
    let d := c :: rest
    let len := strcspn d ['\n']
    if len ≥ LINE_SIZE then (Line.null, some d)
    else if len ≠ 0 ∧ isprint c = false then (Line.abort, some d)
    else if len < d.length then (Line.some (d.take len), some (d.drop (len + 1)))
    else (Line.some (d.take len), none)

/-- Split of a directive line as done in `finalize_join` (and, with the same
delimiters, in `get_value`): the text before the first blank or `=`, and the
text after the blanks, an optional `=`, and further blanks. -/
def split_directive (l : List Char) : List Char × List Char :=
  let len := strcspn l (cs "\t =")
  let value := l.drop len
  let value := value.drop (strspn value (cs "\t "))
  let value :=
    if value.head? = some '=' then
      (value.drop 1).drop (strspn (value.drop 1) (cs "\t "))
    else value
  (l.take len, value)

/-- Result of `get_value`: a value, `NULL`, or no return because `get_line` aborted. -/
inductive Value where
  | null : Value
  | abort : Value
  | val : List Char → Value
  deriving DecidableEq, Repr

/-- Model of `get_value(data, var)`: the value of the first line when that line
is a `var` directive. -/
def get_value (data : Option (List Char)) (var : List Char) : Value :=
  match (get_line data).1 with
  | Line.null => Value.null
  | Line.abort => Value.abort
  | Line.some line =>
    let sv := split_directive line
    if strcasecmp sv.1 var then Value.null else Value.val sv.2

/-- The skipping loop of `grep`: the first line start at which `var` followed by
a blank, `=` or the end of the text is found, or `NULL`. -/
def grep_skip (var : List Char) : Nat → List Char → Option (List Char)
  | 0, _ => none
  | fuel + 1, p =>
    let varlen := var.length
    if strncasecmp p var varlen ||
        !(match p.get? varlen with
          | none => true
          | some c => (cs " \t=").contains c) then
      if strcspn p ['\n'] < p.length then
        grep_skip var fuel (p.drop (strcspn p ['\n'] + 1))
      else none
    else some p

/-- Model of `grep(data, var)`: the value of the first `var` line anywhere in
the text; `NULL` when there is none or when the value does not fit the buffer. -/
def grep (data var : List Char) : Option (List Char) :=
  match grep_skip var (data.length + 1) data with
  | none => none
  | some p =>
    let p := p.drop var.length
    let p := p.drop (strspn p (cs " \t"))
    let p :=
      if p.head? = some '=' then (p.drop 1).drop (strspn (p.drop 1) (cs " \t")) else p
    let e := strcspn p ['\n']
    if e < p.length then
      if e ≥ LINE_SIZE then none else some (p.take e)
    else some p

/-! ## Configuration stream provisioner -/

/-- Modelled from the spec: the entries of the Config Variable Policy table
`variables` (declared in `tincctl.h`, which is not among the sources): a name and
the two flags `finalize_join` tests, `type & VAR_SAFE` and `type & VAR_HOST`. -/
structure var_t where
  name : List Char
  safe : Bool
  host : Bool
  deriving DecidableEq, Repr

/-- The separator line written by `cmd_invite` and skipped by `finalize_join`. -/
def SEPARATOR : List Char :=
  cs "#---------------------------------------------------------------#"

/-- The loop vars shared by the two scanning loops of `finalize_join`. -/
structure Cursor where
  l : Option (List Char)
  value : List Char
  p : Option (List Char)
  deriving DecidableEq, Repr

/-- How a scanning loop ends: `get_line` aborted the process, the fuel of the
model ran out, or the loop was left with the given vars. `acc` is the text
handed to the output streams so far. -/
inductive Loop (α : Type) where
  | abort : α → Loop α
  | fuel : Loop α
  | done : Cursor → α → Loop α

/-- The search of the table `variables` (here `vars`) for the first entry whose name equals
`l` up to case (the `for` loop ending in `found = true; break`). -/
def find_variable (vars : List var_t) (l : List Char) : Option var_t :=
  vars.find? (fun v => !strcasecmp l v.name)

/-- The first loop of `finalize_join`: filters the first chunk. The accumulator
holds the text written to `f` (tinc.conf) and to `fh` (hosts/Name). -/
def first_chunk (vars : List var_t) (name : List Char) :
    Nat → Option (List Char) → List Char → List Char × List Char →
      Loop (List Char × List Char)
  | 0, _, _, _ => Loop.fuel
  | fuel + 1, p, value, out =>
    match get_line p with
    | (Line.abort, _) => Loop.abort out
    | (Line.null, p1) => Loop.done ⟨none, value, p1⟩ out
    | (Line.some l, p1) =>
      if l.head? = some '#' then first_chunk vars name fuel p1 value out
      else
        let sv := split_directive l
        if !strcasecmp sv.1 (cs "Name") then
          if strcmp sv.2 name then Loop.done ⟨some sv.1, sv.2, p1⟩ out
          else first_chunk vars name fuel p1 sv.2 out
        else if !strcasecmp sv.1 (cs "NetName") then
          first_chunk vars name fuel p1 sv.2 out
        else
          match find_variable vars sv.1 with
          | none => first_chunk vars name fuel p1 sv.2 out
          | some v =>
            if !v.safe then first_chunk vars name fuel p1 sv.2 out
            else if v.host then
              first_chunk vars name fuel p1 sv.2
                (out.1, out.2 ++ (sv.1 ++ cs " = " ++ sv.2 ++ cs "\n"))
            else
              first_chunk vars name fuel p1 sv.2
                (out.1 ++ (sv.1 ++ cs " = " ++ sv.2 ++ cs "\n"), out.2)

/-- The inner loop of the second phase of `finalize_join`: copies lines to the
current host file until the next `Name` directive or the end of the text. -/
def copy_chunk : Nat → Option (List Char) → List Char → List Char → Loop (List Char)
  | 0, _, _, _ => Loop.fuel
  | fuel + 1, p, value, f =>
    match get_line p with
    | (Line.abort, _) => Loop.abort f
    | (Line.null, p1) => Loop.done ⟨none, value, p1⟩ f
    | (Line.some l, p1) =>
      if !strcmp l SEPARATOR then copy_chunk fuel p1 value f
      else
        let len := strcspn l (cs "\t =")
        if len = 4 ∧ strncasecmp l (cs "Name") 4 = false then
          Loop.done ⟨some (split_directive l).1, (split_directive l).2, p1⟩ f
        else copy_chunk fuel p1 value (f ++ l ++ cs "\n")

/-- How the second phase of `finalize_join` ends; `files` are the host files
opened for the secondary chunks, in order, each with the text written to it. -/
inductive Secondary where
  | abort : List (List Char × List Char) → Secondary
  | fuel : Secondary
  | fail : List (List Char × List Char) → Secondary
  | done : List (List Char × List Char) → Secondary
  deriving DecidableEq, Repr

/-- The outer loop of the second phase of `finalize_join`
(`while(l && !strcasecmp(l, "Name"))`). -/
def secondary_chunks (check_id : List Char → Bool) (fopen_ok : List Char → Bool)
    (name hosts_dir : List Char) :
    Nat → Cursor → List (List Char × List Char) → Secondary
  | 0, _, _ => Secondary.fuel
  | fuel + 1, c, files =>
    match c.l with
    | none => Secondary.done files
    | some l =>
      if strcasecmp l (cs "Name") then Secondary.done files
      else if !check_id c.value then Secondary.fail files
      else if !strcmp c.value name then Secondary.fail files
      else
        let filename := hosts_dir ++ SLASH ++ c.value
        if !fopen_ok filename then Secondary.fail files
        else
          match copy_chunk fuel c.p c.value [] with
          | Loop.abort f => Secondary.abort (files ++ [(filename, f)])
          | Loop.fuel => Secondary.fuel
          | Loop.done c1 f =>
            secondary_chunks check_id fopen_ok name hosts_dir fuel c1
              (files ++ [(filename, f)])

/-- Everything `finalize_join` reads or calls that is defined outside
`invitation.c`: global variables, the file system, the terminal and the key
generators. -/
structure JoinEnv where
  /-- The identifier check `check_id` (declared in `utils.h`). -/
  check_id : List Char → Bool
  /-- The table `variables`. -/
  vars : List var_t
  /-- Global `netname` on entry (`NULL` when no `-n` option was given). -/
  netname : Option (List Char)
  /-- Global `confbasegiven`. -/
  confbasegiven : Bool
  /-- Global `confbase` on entry; only kept when `confbasegiven`. -/
  confbase : List Char
  /-- What `make_names()` stores in `confbase` when it was `NULL`, from `netname`. -/
  make_names : Option (List Char) → List Char
  /-- Global `tty`. -/
  tty : Bool
  /-- Lines returned by successive `fgets(line, sizeof line, stdin)`; after the
  last one `fgets` returns `NULL`. -/
  stdin : List (List Char)
  /-- `access(path, F_OK)` returns 0. -/
  access_ok : List Char → Bool
  /-- `mkdir(path, 0755)` succeeds or fails with `EEXIST`. -/
  mkdir_ok : List Char → Bool
  /-- `fopen(path, "w")` returns a stream. -/
  fopen_ok : List Char → Bool
  /-- `ecdsa_generate()` returns a key. -/
  ecdsa_generate_ok : Bool
  /-- Result of `ecdsa_get_base64_public_key(key)`. -/
  b64key : Option (List Char)
  /-- `ecdsa_write_pem_private_key(key, f)` succeeds. -/
  ecdsa_write_ok : Bool
  /-- Text written by `rsa_write_pem_public_key(rsa, fh)`. -/
  rsa_public_pem : List Char

/-- How a call ends: it returns a value, the process is aborted, or the fuel of
the model ran out. -/
inductive Outcome where
  | ret : Bool → Outcome
  | aborted : Outcome
  | fuel : Outcome
  deriving DecidableEq, Repr

/-- The observable effects of one call of `finalize_join`. -/
structure JoinResult where
  outcome : Outcome
  /-- The static flag `success` after the call. -/
  success : Bool
  /-- The value of `netname` at each call of `make_names()`, in order. -/
  made_names : List (Option (List Char))
  /-- The paths given to `mkdir`, in order. -/
  mkdirs : List (List Char)
  /-- Path of `tinc.conf` and the text written to it, once it has been opened. -/
  tinc_conf : Option (List Char × List Char)
  /-- Path of the joiner's own host file and the text written to it. -/
  host : Option (List Char × List Char)
  /-- The host files opened for secondary chunks: path and text, in order. -/
  secondary : List (List Char × List Char)
  /-- The private key files opened, in order. -/
  keyfiles : List (List Char)
  /-- The records given to `sptps_send_record`: type and payload. -/
  sent : List (Nat × List Char)
  deriving DecidableEq, Repr

/-- The prompt loop at `ask_netname`: skips empty answers, and returns the first
other answer without its last character, with the answers left. `none` when
`fgets` returns `NULL`. -/
def ask_netname : List (List Char) → Option (List Char × List (List Char))
  | [] => none
  | line :: rest =>
    if line = [] ∨ line.head? = some '\n' then ask_netname rest
    else some (line.dropLast, rest)

/-- Result of the name resolution at `make_names`: the `netname` values tried,
and the configuration root when a free one was found. -/
inductive Names where
  | fuel : Names
  | fail : List (Option (List Char)) → Names
  | ok : List Char → List (Option (List Char)) → Names

/-- The loop formed by the labels `make_names` and `ask_netname`. -/
def resolve_names (E : JoinEnv) :
    Nat → Option (List Char) → List (List Char) → List (Option (List Char)) → Names
  | 0, _, _, _ => Names.fuel
  | fuel + 1, netname, stdin, made =>
    let confbase := if E.confbasegiven then E.confbase else E.make_names netname
    let tinc_conf := confbase ++ SLASH ++ cs "tinc.conf"
    if E.access_ok tinc_conf then
      if !E.tty || E.confbasegiven then Names.fail (made ++ [netname])
      else
        match ask_netname stdin with
        | none => Names.fail (made ++ [netname])
        | some (answer, rest) => resolve_names E fuel (some answer) rest (made ++ [netname])
    else Names.ok confbase (made ++ [netname])

/-- The end of `finalize_join` (from `ecdsa_generate()` on): the key files, the
public keys appended to the own host file, the record sent to the peer, and
the flag `success`. `fh` is the text written to the own host file so far. The
calls whose result the source does not test (the two `fopen` of the key files,
`rsa_generate`, `sptps_send_record`) are taken to succeed. -/
def provision_keys (E : JoinEnv) (confbase filename fh : List Char) (r : JoinResult) :
    JoinResult :=
  if !E.ecdsa_generate_ok then r
  else
    match E.b64key with
    | none => r
    | some b64key =>
      if !E.ecdsa_write_ok then
        { r with keyfiles := [confbase ++ SLASH ++ cs "ecdsa_key.priv"] }
      else
        { r with
          outcome := Outcome.ret true
          success := true
          host := some (filename,
            fh ++ (cs "ECDSAPublicKey = " ++ b64key ++ cs "\n") ++ E.rsa_public_pem)
          sent := [(1, b64key)]
          keyfiles := [confbase ++ SLASH ++ cs "ecdsa_key.priv",
                       confbase ++ SLASH ++ cs "rsa_key.priv"] }

/-- The middle of `finalize_join` (from `fopen(tinc_conf, "w")` up to the end of
the second loop), followed by `provision_keys`. `r` holds the effects so far. -/
def write_chunks (E : JoinEnv) (name confbase : List Char) (data : Option (List Char))
    (r : JoinResult) : JoinResult :=
  let tinc_conf := confbase ++ SLASH ++ cs "tinc.conf"
  let hosts_dir := confbase ++ SLASH ++ cs "hosts"
  if !E.fopen_ok tinc_conf then r
  else
    let f := cs "Name = " ++ name ++ cs "\n"
    let filename := hosts_dir ++ SLASH ++ name
    if !E.fopen_ok filename then { r with tinc_conf := some (tinc_conf, f) }
    else
      let fuel := (data.getD []).length + 2
      match first_chunk E.vars name fuel data [] (f, []) with
      | Loop.fuel => { r with outcome := Outcome.fuel }
      | Loop.abort out =>
        { r with outcome := Outcome.aborted, tinc_conf := some (tinc_conf, out.1),
                 host := some (filename, out.2) }
      | Loop.done c out =>
        let r3 := { r with tinc_conf := some (tinc_conf, out.1), host := some (filename, out.2) }
        match secondary_chunks E.check_id E.fopen_ok name hosts_dir fuel c [] with
        | Secondary.fuel => { r3 with outcome := Outcome.fuel }
        | Secondary.abort files => { r3 with outcome := Outcome.aborted, secondary := files }
        | Secondary.fail files => { r3 with secondary := files }
        | Secondary.done files =>
          provision_keys E confbase filename out.2 { r3 with secondary := files }

/-- Model of `finalize_join()`. `success` is the static flag on entry and `data`
the static buffer, as a C string. `xstrdup` (`xalloc.h`) is taken to hand a
`NULL` through, so that a missing `Name` ends in the `return false` written
after it. -/
def finalize_join (E : JoinEnv) (success : Bool) (data : Option (List Char)) : JoinResult :=
  let r0 : JoinResult :=
    { outcome := Outcome.ret false, success := success, made_names := [], mkdirs := [],
      tinc_conf := none, host := none, secondary := [], keyfiles := [], sent := [] }
  match get_value data (cs "Name") with
  | Value.abort => { r0 with outcome := Outcome.aborted }
  | Value.null => r0
  | Value.val name =>
    if !E.check_id name then r0
    else
      let netname :=
        match E.netname with
        | some n => some n
        | none => grep (data.getD []) (cs "NetName")
      match resolve_names E (E.stdin.length + 1) netname E.stdin [] with
      | Names.fuel => { r0 with outcome := Outcome.fuel }
      | Names.fail made => { r0 with made_names := made }
      | Names.ok confbase made =>
        let hosts_dir := confbase ++ SLASH ++ cs "hosts"
        if !E.mkdir_ok confbase then { r0 with made_names := made, mkdirs := [confbase] }
        else if !E.mkdir_ok hosts_dir then
          { r0 with made_names := made, mkdirs := [confbase, hosts_dir] }
        else
          write_chunks E name confbase data
            { r0 with made_names := made, mkdirs := [confbase, hosts_dir] }

/-! ## Joiner client -/

/-- Index of the first occurrence of `c` in `s`, `none` for `NULL`. -/
def strchr (s : List Char) (c : Char) : Option Nat :=
  if strcspn s [c] < s.length then some (strcspn s [c]) else none

/-- The invitation URL as `cmd_join` holds it after parsing. -/
structure Url where
  address : List Char
  port : List Char
  hash : List Char
  cookie : List Char
  deriving DecidableEq, Repr

/-- The URL parser of `cmd_join` (from `strchr(invitation, '/')` to the two
`b64decode` calls); `none` stands for `goto invalid`. `b64decode src len` is the
decoder of `utils.c`, `none` when it returns 0. -/
def parse_url (b64decode : List Char → Nat → Option (List Char))
    (invitation : List Char) : Option Url :=
  match strchr invitation '/' with
  | none => none
  | some i =>
    let slash := invitation.drop (i + 1)
    let invitation := invitation.take i
    if slash.length ≠ 48 then none
    else
      let parsed : Option (List Char × Option (List Char)) :=
        if invitation.head? = some '[' then
          let address := invitation.drop 1
          match strchr address ']' with
          | none => none
          | some j =>
            some (address.take j,
              if (address.drop (j + 1)).head? = some ':' then some (address.drop (j + 2))
              else none)
        else
          match strchr invitation ':' with
          | some j => some (invitation.take j, some (invitation.drop (j + 1)))
          | none => some (invitation, none)
      match parsed with
      | none => none
      | some (address, port) =>
        let port :=
          match port with
          | none => cs "655"
          | some [] => cs "655"
          | some (c :: r) => c :: r
        match b64decode slash 18 with
        | none => none
        | some hash =>
          match b64decode (slash.drop 24) 18 with
          | none => none
          | some cookie => some ⟨address, port, hash, cookie⟩

/-- The static session variables of `invitation.c`. `data` holds the `datalen`
bytes received so far (`NULL` before the first fragment). -/
structure Session where
  data : Option (List Char)
  datalen : Nat
  success : Bool
  hash : List Char
  cookie : List Char
  deriving DecidableEq, Repr

/-- The calls of `cmd_join` and its callbacks that reach outside the module. -/
inductive Event where
  | keygen : Event
  | str2addrinfo : List Char → List Char → Event
  | socket : Event
  | connect : Event
  | sendline : List Char → Event
  | sptps_start : Event
  | send_cookie : List Char → Event
  | finalize_join : JoinResult → Event
  | sptps_stop : Event
  deriving DecidableEq, Repr

/-- What one call of `sptps_receive_data` does: the records it hands to the
receive callback, in order, and its own verdict on the bytes. -/
structure Feed where
  records : List (Nat × List Char)
  ok : Bool
  deriving DecidableEq, Repr

/-- One result of `recv(sock, ...)` other than 0: interrupted, another error, or
bytes, given by what `sptps_receive_data` makes of them. -/
inductive Recv where
  | eintr : Recv
  | error : Recv
  | bytes : Feed → Recv
  deriving DecidableEq, Repr

/-- Everything `cmd_join` reads or calls that is defined outside `invitation.c`. -/
structure Env where
  /-- The environment of the `k`-th call of `finalize_join` (counted from 0). -/
  join : Nat → JoinEnv
  check_id : List Char → Bool
  argc : Nat
  argv1 : List Char
  /-- `mkdir(confdir, 0755)` succeeds or fails with `EEXIST`. -/
  mkdir_confdir_ok : Bool
  /-- Result of `fgets(line, sizeof line, stdin)`. -/
  stdin_line : Option (List Char)
  /-- The text `rstrip` leaves (`tincctl.c`); it returns false when that is empty. -/
  rstrip : List Char → List Char
  b64decode : List Char → Nat → Option (List Char)
  /-- `ecdsa_generate()` returns a key. -/
  ecdsa_generate_ok : Bool
  /-- Result of `ecdsa_get_base64_public_key(key)` for the throw-away key. -/
  b64key : List Char
  PROT_MAJOR : Nat
  PROT_MINOR : Nat
  /-- The code `ACK` of `protocol.h`. -/
  ACK : Int
  str2addrinfo_ok : List Char → List Char → Bool
  /-- `socket(...)` returns a positive descriptor. -/
  socket_ok : Bool
  connect_ok : Bool
  sendline_ok : Bool
  /-- Results of the two `recvline` calls. -/
  recvline1 : Option (List Char)
  recvline2 : Option (List Char)
  /-- `sscanf(line, "%d %s %d.%d", ...)`: conversions made, `code`, `hisname`, `hismajor`. -/
  sscanf_greeting : List Char → Nat × Int × List Char × Int
  /-- `sscanf(line, "%d ", &code)`: conversions made and `code`. -/
  sscanf_code : List Char → Nat × Int
  /-- `digest_open_by_name("sha256", 18)` returns a digest. -/
  digest_open_ok : Bool
  /-- `digest_create`: the 18 bytes stored in `hishash`, `none` when it fails. -/
  digest_create : List Char → Option (List Char)
  ecdsa_set_base64_public_key_ok : List Char → Bool
  sptps_start_ok : Bool
  /-- `sptps_send_record(&sptps, 0, cookie, sizeof cookie)` succeeds. -/
  send_cookie_ok : Bool
  /-- What `sptps_receive_data(&sptps, buffer, blen)` makes of the bytes read
  together with the greeting. -/
  buffered : Feed
  /-- Results of the successive `recv` calls; after the last one `recv` returns 0. -/
  recvs : List Recv

/-- Modelled from the spec: the record type `SPTPS_HANDSHAKE` of `sptps.h`, the
reserved handshake-completion notification. -/
def SPTPS_HANDSHAKE : Nat := 128

/-- The state threaded through the callbacks: the statics and the trace. -/
structure State where
  session : Session
  events : List Event
  deriving DecidableEq, Repr

/-- Number of `finalize_join` calls recorded in a trace. -/
def finalize_calls (events : List Event) : Nat :=
  events.countP (fun e => match e with | Event.finalize_join _ => true | _ => false)

/-- Model of the callback `invitation_receive(handle, type, msg, len)`. -/
def invitation_receive (E : Env) (st : State) (type : Nat) (msg : List Char) :
    Outcome × State :=
  if type = SPTPS_HANDSHAKE then
    (Outcome.ret E.send_cookie_ok,
      { st with events := st.events ++ [Event.send_cookie st.session.cookie] })
  else if type = 0 then
    (Outcome.ret true,
      { st with session :=
          { st.session with
            data := some (st.session.data.getD [] ++ msg)
            datalen := st.session.datalen + msg.length } })
  else if type = 1 then
    let r := finalize_join (E.join (finalize_calls st.events)) st.session.success
      (st.session.data.map cstr)
    (r.outcome,
      { session := { st.session with success := r.success }
        events := st.events ++ [Event.finalize_join r] })
  else (Outcome.ret false, st)

/-- The records of one `sptps_receive_data` call handed to `invitation_receive`
in order; stops at the first record the callback refuses. -/
def deliver (E : Env) : List (Nat × List Char) → State → Outcome × State
  | [], st => (Outcome.ret true, st)
  | (type, msg) :: rest, st =>
    match invitation_receive E st type msg with
    | (Outcome.ret true, st1) => deliver E rest st1
    | other => other

/-- Model of `sptps_receive_data` as far as `cmd_join` observes it. -/
def sptps_receive_data (E : Env) (f : Feed) (st : State) : Outcome × State :=
  match deliver E f.records st with
  | (Outcome.ret true, st1) => (Outcome.ret f.ok, st1)
  | other => other

/-- How `cmd_join` ends: with a return value, or aborted, or out of fuel. -/
inductive Exit where
  | ret : Nat → Exit
  | aborted : Exit
  | fuel : Exit
  deriving DecidableEq, Repr

/-- The exit that corresponds to a callback chain that did not return true. -/
def Exit.ofOutcome : Outcome → Exit
  | Outcome.ret _ => Exit.ret 1
  | Outcome.aborted => Exit.aborted
  | Outcome.fuel => Exit.fuel

/-- The end of `cmd_join` after the connection was closed: `sptps_stop` and the
test of the static flag `success`. -/
def join_close (st : State) : Exit × State :=
  let st := { st with events := st.events ++ [Event.sptps_stop] }
  if !st.session.success then (Exit.ret 1, st) else (Exit.ret 0, st)

/-- The `while((len = recv(...)))` loop of `cmd_join`. -/
def recv_loop (E : Env) : List Recv → State → Exit × State
  | [], st => join_close st
  | Recv.eintr :: rest, st => recv_loop E rest st
  | Recv.error :: _, st => (Exit.ret 1, st)
  | Recv.bytes f :: rest, st =>
    match sptps_receive_data E f st with
    | (Outcome.ret true, st1) => recv_loop E rest st1
    | (o, st1) => (Exit.ofOutcome o, st1)

/-- The greeting check of `cmd_join`: the acknowledgement line (after `rstrip`)
when the long condition accepts the two lines received, `none` otherwise. -/
def greeting (E : Env) : Option (List Char) :=
  match E.recvline1 with
  | none => none
  | some line1 =>
    let g := E.sscanf_greeting line1
    if g.1 < 3 ∨ g.2.1 ≠ 0 ∨ g.2.2.2 ≠ (E.PROT_MAJOR : Int) ∨ E.check_id g.2.2.1 = false then none
    else
      match E.recvline2 with
      | none => none
      | some line2 =>
        let line := E.rstrip line2
        if line = [] ∨ (E.sscanf_code line).1 ≠ 1 ∨ (E.sscanf_code line).2 ≠ E.ACK
            ∨ line.length < 3 then none
        else some line

/-- The greeting `snprintf` formats into `line` ("0 ?%s %d.%d\n"); `cmd_join`
aborts when it does not fit the 4096 bytes of `line`. -/
def hello (E : Env) : List Char :=
  cs "0 ?" ++ E.b64key ++ cs " " ++ (Nat.repr E.PROT_MAJOR).toList
    ++ cs "." ++ (Nat.repr E.PROT_MINOR).toList ++ cs "\n"

/-- The part of `cmd_join` after the URL has been parsed. -/
def join_url (E : Env) (u : Url) (st : State) : Exit × State :=
  let st := { st with events := st.events ++ [Event.keygen] }
  if !E.ecdsa_generate_ok then (Exit.ret 1, st)
  else
    let st := { st with events := st.events ++ [Event.str2addrinfo u.address u.port] }
    if !E.str2addrinfo_ok u.address u.port then (Exit.ret 1, st)
    else
      let st := { st with events := st.events ++ [Event.socket] }
      if !E.socket_ok then (Exit.ret 1, st)
      else
        let st := { st with events := st.events ++ [Event.connect] }
        if !E.connect_ok then (Exit.ret 1, st)
        else
          if (hello E).length ≥ 4096 then (Exit.aborted, st)
          else
            let st := { st with events := st.events ++
              [Event.sendline (cs "0 ?" ++ E.b64key ++ cs " " ++ (Nat.repr E.PROT_MAJOR).toList
                ++ cs ".1")] }
            if !E.sendline_ok then (Exit.ret 1, st)
            else
              match greeting E with
              | none => (Exit.ret 1, st)
              | some line =>
                let fingerprint := line.drop 2
                if !E.digest_open_ok then (Exit.aborted, st)
                else
                  match E.digest_create fingerprint with
                  | none => (Exit.ret 1, st)
                  | some hishash =>
                    if hishash.take 18 ≠ st.session.hash.take 18 then (Exit.ret 1, st)
                    else if !E.ecdsa_set_base64_public_key_ok fingerprint then (Exit.ret 1, st)
                    else
                      let st := { st with events := st.events ++ [Event.sptps_start] }
                      if !E.sptps_start_ok then (Exit.ret 1, st)
                      else
                        match sptps_receive_data E E.buffered st with
                        | (Outcome.ret true, st1) => recv_loop E E.recvs st1
                        | (o, st1) => (Exit.ofOutcome o, st1)

/-- The invitation string `cmd_join` parses: `argv[1]` when given, otherwise the
line read from standard input after `rstrip`; `none` when `fgets` fails. -/
def read_invitation (E : Env) : Option (List Char) :=
  if E.argc > 1 then some E.argv1
  else
    match E.stdin_line with
    | none => none
    | some line => some (E.rstrip line)

/-- Model of `cmd_join(argc, argv)`, started with the statics `S`. The statics
`hash` and `cookie` are tracked once both have been decoded. -/
def cmd_join (E : Env) (S : Session) : Exit × State :=
  let st : State := { session := { S with data := none, datalen := 0 }, events := [] }
  if E.argc > 2 then (Exit.ret 1, st)
  else if !E.mkdir_confdir_ok then (Exit.ret 1, st)
  else
    match read_invitation E with
    | none => (Exit.ret 0, st)
    | some invitation =>
      match parse_url E.b64decode invitation with
      | none => (Exit.ret 1, st)
      | some u =>
        join_url E u { st with session := { st.session with hash := u.hash, cookie := u.cookie } }

/-! ## Issuer -/

/-- The body of the `fgets` loop of `get_my_hostname` for one line of the own
host file: `none` when the line is skipped (`continue`), otherwise the address
built from the `Address` directive. -/
def address_line (rstrip : List Char → List Char) (line : List Char) : Option (List Char) :=
  let line := rstrip line
  if line = [] then none
  else if strcspn line (cs "\t =") ≥ line.length then none
  else
    let sv := split_directive line
    if strcasecmp sv.1 (cs "Address") then none
    else
      let q := sv.2
      let host := q.take (strcspn q (cs "\t "))
      let p := q.drop (strcspn q (cs "\t "))
      let p := if p = [] then p else p.drop 1
      let p := p.drop (strspn p (cs "\t "))
      let port := p.take (strcspn p (cs "\t "))
      if port ≠ [] then
        if host.contains ':' then some (cs "[" ++ host ++ cs "]:" ++ port)
        else some (host ++ cs ":" ++ port)
      else some host

/-- The first part of `get_my_hostname()`: the address taken from the first
`Address` statement of the own host file, given as the lines `fgets` returns
(`none` when the file is not read). The result `none` stands for the rest of
the function, the interactive discovery, which is not modelled. -/
def get_my_hostname (rstrip : List Char → List Char) (hostfile : Option (List (List Char))) :
    Option (List Char) :=
  match hostfile with
  | none => none
  | some file => file.findSome? (address_line rstrip)

/-- The URL `cmd_invite` prints (without the final newline), from the address
and the two encoded 24-character values. -/
def invitation_url (address hash cookie : List Char) : List Char :=
  address ++ cs "/" ++ hash ++ cookie

/-- The text `cmd_invite` writes to the invitation file for the new node
`name`, the global `netname`, the own name `myname`, and the content of the own
host file that `fcopy` appends. -/
def invitation_record (name : List Char) (netname : Option (List Char))
    (myname hostconf : List Char) : List Char :=
  cs "Name = " ++ name ++ cs "\n"
    ++ (match netname with
        | none => []
        | some net => cs "NetName = " ++ net ++ cs "\n")
    ++ (cs "ConnectTo = " ++ myname ++ cs "\n")
    ++ (SEPARATOR ++ cs "\n")
    ++ (cs "Name = " ++ myname ++ cs "\n")
    ++ hostconf

/-- An entry of the invitation directory as the sweep sees it: the name, and
the modification time `stat` reports (`none` when `stat` fails). -/
structure dirent where
  d_name : List Char
  st_mtime : Option Int
  deriving DecidableEq, Repr

/-- The `readdir` loop of `cmd_invite`: the number of valid invitations counted
and the names given to `unlink`, in order. `now` is `time(NULL)`. -/
def gc_sweep (now : Int) : List dirent → Nat × List (List Char) → Nat × List (List Char)
  | [], acc => acc
  | ent :: rest, acc =>
    let deadline := now - 604800
    if ent.d_name.length ≠ 24 then gc_sweep now rest acc
    else
      match ent.st_mtime with
      | some mtime =>
        if deadline < mtime then gc_sweep now rest (acc.1 + 1, acc.2)
        else gc_sweep now rest (acc.1, acc.2 ++ [ent.d_name])
      | none => gc_sweep now rest acc

/-- A key `ecdsa_t`, as far as the module sees it: the key material. -/
structure ecdsa_t where
  material : List Char
  deriving DecidableEq, Repr

/-- The explicit state `cmd_invite` works on: the content of the ephemeral key
file `invitations/ecdsa_key.priv` when it exists, and the other entries of the
invitation directory. -/
structure Store where
  key_file : Option (List Char)
  records : List dirent
  deriving DecidableEq, Repr

/-- Everything `cmd_invite` reads or calls that is defined outside
`invitation.c`. Calls whose result the source does not test (`unlink`, `chmod`,
`ecdsa_write_pem_private_key`, `digest_create`, `fcopy`) are taken to succeed. -/
structure InviteEnv where
  argc : Nat
  argv1 : List Char
  check_id : List Char → Bool
  /-- Result of `get_my_name(true)`. -/
  get_my_name : Option (List Char)
  confbase : List Char
  /-- `access(path, F_OK)` returns 0. -/
  access_ok : List Char → Bool
  /-- The node names the running daemon reports, `none` when `connect_tincd`
  fails. -/
  daemon_nodes : Option (List (List Char))
  /-- `mkdir(invitations, 0700)` succeeds or fails with `EEXIST`. -/
  mkdir_ok : Bool
  opendir_ok : Bool
  /-- The value of `time(NULL)`. -/
  now : Int
  /-- `errno` is set when the `readdir` loop has ended. -/
  sweep_errno : Bool
  /-- `fopen(filename, "r")` of the key file fails with an `errno` other than
  `ENOENT`. -/
  key_open_denied : Bool
  /-- Result of `ecdsa_generate()`. -/
  ecdsa_generate : Option ecdsa_t
  /-- `fopen(filename, "w")` of the key file returns a stream. -/
  key_fopen_w_ok : Bool
  /-- The key `ecdsa_read_pem_private_key` reads from a file with this content. -/
  ecdsa_read_pem_private_key : List Char → Option ecdsa_t
  /-- The text `ecdsa_write_pem_private_key` writes for a key. -/
  ecdsa_write_pem_private_key : ecdsa_t → List Char
  ecdsa_get_base64_public_key : ecdsa_t → List Char
  /-- `digest_open_by_name("sha256", 18)` returns a digest. -/
  digest_open_ok : Bool
  /-- The 18 bytes `digest_create` stores for a text. -/
  digest_create : List Char → List Char
  b64encode_urlsafe : List Char → List Char
  /-- The 18 bytes `randomize(cookie, 18)` stores. -/
  randomize : List Char
  /-- Result of `open(filename, O_RDWR | O_CREAT | O_EXCL, 0600)` for a name that
  is not in the directory yet. -/
  open_fd : Int
  /-- Global `netname`. -/
  netname : Option (List Char)
  /-- The content of the own host file that `fcopy` appends, `none` when it
  cannot be opened. -/
  hostconf : Option (List Char)
  /-- Result of `get_my_hostname()`. -/
  address : Option (List Char)

/-- The key file as `cmd_invite` finds it when it opens it: gone after
`if(!count) unlink(filename)` when there is no outstanding invitation. -/
def key_file_at_open (count : Nat) (key_file : Option (List Char)) : Option (List Char) :=
  if count = 0 then none else key_file

/-- The outcome of the key step of `cmd_invite`: the variable `key` (`none` for
`NULL`, in which case `cmd_invite` returns 1), the key file afterwards, and
whether `unlink` and `ecdsa_generate` were called. -/
structure KeyStep where
  key : Option ecdsa_t
  key_file : Option (List Char)
  unlinked : Bool
  generated : Bool
  deriving DecidableEq, Repr

/-- The key step of `cmd_invite` (from `if(!count)` to `if(!key) return 1`). -/
def invite_key (E : InviteEnv) (count : Nat) (key_file : Option (List Char)) : KeyStep :=
  let unlinked := decide (count = 0)
  let file := key_file_at_open count key_file
  if E.key_open_denied then ⟨none, file, unlinked, false⟩
  else
    match file with
    | none =>
      match E.ecdsa_generate with
      | none => ⟨none, none, unlinked, true⟩
      | some key =>
        if !E.key_fopen_w_ok then ⟨none, none, unlinked, true⟩
        else ⟨some key, some (E.ecdsa_write_pem_private_key key), unlinked, true⟩
    | some content =>
      ⟨E.ecdsa_read_pem_private_key content, some content, unlinked, false⟩

/-- The observable effects of one call of `cmd_invite`. -/
structure InviteResult where
  exit : Exit
  /-- The key file and the directory afterwards. -/
  store : Store
  /-- `unlink` was called on the key file. -/
  key_unlinked : Bool
  /-- `ecdsa_generate()` was called. -/
  generated : Bool
  /-- The variable `key` once the key step has left a key in it. -/
  key : Option ecdsa_t
  /-- The encoded hash of the key, once computed. -/
  hash : Option (List Char)
  /-- Name and content of the invitation file created. -/
  created : Option (List Char × List Char)
  /-- The URL printed, when `get_my_hostname` returned an address. -/
  url : Option (List Char)
  deriving DecidableEq, Repr

/-- The encoded hash `cmd_invite` computes for a key. -/
def key_hash (E : InviteEnv) (key : ecdsa_t) : List Char :=
  E.b64encode_urlsafe (E.digest_create (E.ecdsa_get_base64_public_key key))

/-- The checks of `cmd_invite` before the `readdir` loop, and the test of `errno`
after it: true when `cmd_invite` gets to the key step. -/
def past_gc (E : InviteEnv) : Bool :=
  decide (2 ≤ E.argc) && E.check_id E.argv1 && E.get_my_name.isSome
    && !E.access_ok (E.confbase ++ SLASH ++ cs "hosts" ++ SLASH ++ E.argv1)
    && !(match E.daemon_nodes with
         | none => false
         | some nodes => nodes.contains E.argv1)
    && E.mkdir_ok && E.opendir_ok && !E.sweep_errno

/-- The variable `count` after the `readdir` loop: the outstanding invitations. -/
def outstanding (now : Int) (records : List dirent) : Nat :=
  (gc_sweep now records (0, [])).1

/-- The directory after the `readdir` loop: the entries not given to `unlink`. -/
def swept (now : Int) (records : List dirent) : List dirent :=
  records.filter (fun ent => !(gc_sweep now records (0, [])).2.contains ent.d_name)

/-- The part of `cmd_invite` after the key step: the hash, the cookie, the
invitation file and the URL. `S` is the state after the key step. -/
def invite_record (E : InviteEnv) (myname : List Char) (k : KeyStep) (key : ecdsa_t)
    (S : Store) : InviteResult :=
  let r : InviteResult :=
    { exit := Exit.ret 1, store := S, key_unlinked := k.unlinked, generated := k.generated,
      key := some key, hash := none, created := none, url := none }
  if !E.digest_open_ok then { r with exit := Exit.aborted }
  else
    let hash := key_hash E key
    let cookie := E.b64encode_urlsafe E.randomize
    let ifd : Int := if (S.records.map (fun ent => ent.d_name)).contains cookie then -1
      else E.open_fd
    if ifd = 0 then { r with hash := some hash }
    else if ifd < 0 then { r with exit := Exit.aborted, hash := some hash }
    else
      { r with
        exit := Exit.ret 0
        hash := some hash
        store := { S with records := S.records ++ [⟨cookie, some E.now⟩] }
        created := some (cookie,
          invitation_record E.argv1 E.netname myname (E.hostconf.getD []))
        url := E.address.map (fun address => invitation_url address hash cookie) }

/-- Model of `cmd_invite(argc, argv)` on the state `S`. -/
def cmd_invite (E : InviteEnv) (S : Store) : InviteResult :=
  let r0 : InviteResult :=
    { exit := Exit.ret 1, store := S, key_unlinked := false, generated := false,
      key := none, hash := none, created := none, url := none }
  if E.argc < 2 then r0
  else if !E.check_id E.argv1 then r0
  else
    match E.get_my_name with
    | none => r0
    | some myname =>
      if E.access_ok (E.confbase ++ SLASH ++ cs "hosts" ++ SLASH ++ E.argv1) then r0
      else if (match E.daemon_nodes with
               | none => false
               | some nodes => nodes.contains E.argv1) then r0
      else if !E.mkdir_ok then r0
      else if !E.opendir_ok then r0
      else
        let count := (gc_sweep E.now S.records (0, [])).1
        let S1 : Store := { S with records := swept E.now S.records }
        if E.sweep_errno then { r0 with store := S1 }
        else
          let k := invite_key E count S.key_file
          let S2 : Store := { S1 with key_file := k.key_file }
          match k.key with
          | none =>
            { r0 with store := S2, key_unlinked := k.unlinked, generated := k.generated }
          | some key => invite_record E myname k key S2

/-! ## Helpers defined outside `invitation.c` and a sample environment -/

/-- Modelled from the spec: identifier validation `check_id` (not among the
sources): a valid identifier is a non-empty string of letters, digits and
underscores. -/
def check_id (id : List Char) : Bool :=
  !id.isEmpty && id.all (fun c => c.isAlphanum || c == '_')

/-- Modelled from the spec: `rstrip` (not among the sources) removes the blanks
and line ends at the end of a line. -/
def rstrip (line : List Char) : List Char :=
  (line.reverse.dropWhile (fun c => (cs "\t\r\n ").contains c)).reverse

/-- A small policy table: two safe server variables, one safe host variable,
and two variables that are not safe. -/
def sample_vars : List var_t :=
  [⟨cs "ConnectTo", true, false⟩, ⟨cs "Mode", true, false⟩, ⟨cs "Subnet", true, true⟩,
   ⟨cs "Address", false, true⟩, ⟨cs "Device", false, false⟩]

/-- A joiner on a fresh machine: no `-n` option, no configuration yet, every
file system call and every key operation succeeds. -/
def sample_env : JoinEnv :=
  { check_id := check_id
    vars := sample_vars
    netname := none
    confbasegiven := false
    confbase := []
    make_names := fun netname =>
      match netname with
      | none => cs "/etc/tinc"
      | some n => cs "/etc/tinc/" ++ n
    tty := false
    stdin := []
    access_ok := fun _ => false
    mkdir_ok := fun _ => true
    fopen_ok := fun _ => true
    ecdsa_generate_ok := true
    b64key := some (cs "KEY")
    ecdsa_write_ok := true
    rsa_public_pem := cs "RSA\n" }

/-- The value of a character of the URL-safe base64 alphabet. -/
def b64value (c : Char) : Option Nat :=
  if 'A' ≤ c ∧ c ≤ 'Z' then some (c.toNat - 65)
  else if 'a' ≤ c ∧ c ≤ 'z' then some (c.toNat - 97 + 26)
  else if '0' ≤ c ∧ c ≤ '9' then some (c.toNat - 48 + 52)
  else if c = '-' then some 62
  else if c = '_' then some 63
  else none

/-- Four base64 digits as three bytes. -/
def b64group : List Nat → List Char
  | [a, b, c, d] =>
    let n := ((a * 64 + b) * 64 + c) * 64 + d
    [Char.ofNat (n / 65536), Char.ofNat (n / 256 % 256), Char.ofNat (n % 256)]
  | _ => []

/-- Groups of four digits decoded in turn. -/
def b64groups : Nat → List Nat → List Char
  | 0, _ => []
  | k + 1, digits => b64group (digits.take 4) ++ b64groups k (digits.drop 4)

/-- Modelled from the spec: `b64decode(src, dst, length)` (not among the
sources) for `length` a multiple of 3: URL-safe base64 decoding of the first
`length / 3 * 4` characters of `src`; it fails when there are fewer or when one
of them is outside the alphabet. -/
def b64decode (src : List Char) (length : Nat) : Option (List Char) :=
  let text := src.take (length / 3 * 4)
  if text.length < length / 3 * 4 then none
  else
    match text.mapM b64value with
    | none => none
    | some digits => some (b64groups (length / 3) digits)

/-- A stand-in for the 18-byte digest: the first 18 characters of the text. -/
def sample_digest (text : List Char) : Option (List Char) :=
  some (text.take 18)

/-- A joiner called as `tinc join host.example.org/<hash><cookie>` whose peer
answers the greeting with `0 inviter 17.3` and `4 QUJDREVGR0hJSktMTU5PUFFS`, a
key whose stand-in digest is the hash of the URL, and then closes the
connection without sending a record. -/
def sample_client : Env :=
  { join := fun _ => sample_env
    check_id := check_id
    argc := 2
    argv1 := cs "host.example.org/UVVKRFJFVkdSMGhKU2t0TVRVc2VjcmV0LWNvb2tpZS0xMjM0"
    mkdir_confdir_ok := true
    stdin_line := none
    rstrip := rstrip
    b64decode := b64decode
    ecdsa_generate_ok := true
    b64key := cs "dGhyb3dhd2F5"
    PROT_MAJOR := 17
    PROT_MINOR := 3
    ACK := 4
    str2addrinfo_ok := fun _ _ => true
    socket_ok := true
    connect_ok := true
    sendline_ok := true
    recvline1 := some (cs "0 inviter 17.3")
    recvline2 := some (cs "4 QUJDREVGR0hJSktMTU5PUFFS\n")
    sscanf_greeting := fun _ => (4, 0, cs "inviter", 17)
    sscanf_code := fun _ => (1, 4)
    digest_open_ok := true
    digest_create := sample_digest
    ecdsa_set_base64_public_key_ok := fun _ => true
    sptps_start_ok := true
    send_cookie_ok := true
    buffered := ⟨[], true⟩
    recvs := [] }

/-- Statics left by an earlier successful join in the same process. -/
def stale_session : Session :=
  { data := some (cs "Name = old\n"), datalen := 11, success := true,
    hash := List.replicate 18 'h', cookie := List.replicate 18 'c' }

/-- An inviter `node1` asked to invite `node2`: no daemon running, every call
succeeds; the key file holds the text of a key exactly when that text starts
with `KEY`. -/
def sample_issuer : InviteEnv :=
  { argc := 2
    argv1 := cs "node2"
    check_id := check_id
    get_my_name := some (cs "node1")
    confbase := cs "/etc/tinc/vpn"
    access_ok := fun _ => false
    daemon_nodes := none
    mkdir_ok := true
    opendir_ok := true
    now := 2000000
    sweep_errno := false
    key_open_denied := false
    ecdsa_generate := some ⟨cs "KEY fresh"⟩
    key_fopen_w_ok := true
    ecdsa_read_pem_private_key := fun text =>
      if text.take 3 = cs "KEY" then some ⟨text⟩ else none
    ecdsa_write_pem_private_key := fun key => key.material
    ecdsa_get_base64_public_key := fun key => cs "pub:" ++ key.material
    digest_open_ok := true
    digest_create := fun text => (text ++ List.replicate 18 '.').take 18
    b64encode_urlsafe := fun bytes => (bytes ++ List.replicate 24 '_').take 24
    randomize := cs "secret-cookie-1234"
    open_fd := 5
    netname := some (cs "vpn")
    hostconf := some (cs "Address = 192.0.2.1\n")
    address := some (cs "192.0.2.1") }

/-- An invitation directory with one record issued a day ago and one issued
eight days ago, and the key file of an earlier invitation. -/
def sample_store : Store :=
  { key_file := some (cs "KEY old")
    records := [⟨cs "aaaaaaaaaaaaaaaaaaaaaaaa", some (2000000 - 86400)⟩,
                ⟨cs "bbbbbbbbbbbbbbbbbbbbbbbb", some (2000000 - 691200)⟩] }

/-! ## Vocabulary of the statements -/

/-- The lines of a text: the pieces between line feeds; a line feed at the very
end does not start a further line. -/
def lines : List Char → List (List Char)
  | [] => []
  | c :: rest =>
    if c = '\n' then [] :: lines rest
    else
      match lines rest with
      | [] => [[c]]
      | l :: ls => (c :: l) :: ls

/-- The lines still to be read behind a `char *` that may be `NULL`. -/
def plines : Option (List Char) → List (List Char)
  | none => []
  | some d => lines d

/-- The amount of text behind a `char *`, the measure by which the scanning
loops terminate: 0 for `NULL`, otherwise one more than the length. -/
def msr : Option (List Char) → Nat
  | none => 0
  | some d => d.length + 1

/-- A scanning loop ended (it did not run out of fuel) and, when it was left
with the loop variables `c`, the text behind `c.p` is within `bound`: strictly
when the loop stopped at a `Name` directive. -/
def loop_ends {α : Type} (r : Loop α) (bound : Nat) : Prop :=
  match r with
  | Loop.abort _ => True
  | Loop.fuel => False
  | Loop.done c _ =>
    (c.l = none ∧ msr c.p ≤ bound) ∨
    (msr c.p < bound ∧ ∀ l, c.l = some l → strcasecmp l (cs "Name") = false)

/-- A text made of the given lines, each ended by a line feed. -/
def unlines : List (List Char) → List Char
  | [] => []
  | l :: ls => l ++ '\n' :: unlines ls

/-- A line `get_line` hands out: shorter than its buffer and, unless empty,
starting with a printable character. -/
def line_ok (l : List Char) : Prop :=
  l.length < LINE_SIZE ∧ ∀ c ∈ l.head?, isprint c = true

/-- The line is a `Name` directive: the text before the first blank or `=` is
`Name` in any case. -/
def is_name (l : List Char) : Bool :=
  !strcasecmp (split_directive l).1 (cs "Name")

/-- The line is a `Name` directive for another node than `name`. -/
def is_foreign_name (name l : List Char) : Bool :=
  is_name l && strcmp (split_directive l).2 name

/-- The line as `finalize_join` writes a directive: `var = value` and a line feed. -/
def directive_text (l : List Char) : List Char :=
  (split_directive l).1 ++ cs " = " ++ (split_directive l).2 ++ cs "\n"

/-- The first chunk of a stream for the joiner `name`: the lines before the
first `Name` directive for another node. -/
def first_chunk_lines (name : List Char) (ls : List (List Char)) : List (List Char) :=
  ls.takeWhile (fun l => !is_foreign_name name l)

/-- The directive line is passed on by the filter to the own host file
(`host = true`) or to tinc.conf (`host = false`): it is no comment, no `Name`, no
`NetName`, and the first table entry with its name (up to case) is flagged SAFE
and has the given HOST flag. -/
def routed (vars : List var_t) (host : Bool) (l : List Char) : Bool :=
  !(l.head? = some '#') && !is_name l
    && strcasecmp (split_directive l).1 (cs "NetName")
    && (match find_variable vars (split_directive l).1 with
        | none => false
        | some v => v.safe && (v.host == host))

/-- The directives of the given lines routed to one of the two files, as text. -/
def routed_text (vars : List var_t) (host : Bool) (ls : List (List Char)) : List Char :=
  ((ls.filter (routed vars host)).map directive_text).flatten

/-- The text copied into the host file of a secondary chunk whose lines start
at `ls`: the lines before the next `Name` directive, without separator lines. -/
def chunk_text (ls : List (List Char)) : List Char :=
  unlines ((ls.takeWhile (fun l => !is_name l)).filter (fun l => strcmp l SEPARATOR))

/-- The address part of an invitation string: the text before the first `/`. -/
def url_address (invitation : List Char) : List Char :=
  invitation.takeWhile (fun c => decide (c ≠ '/'))

/-- The encoded part of an invitation string: the text after the first `/`. -/
def url_code (invitation : List Char) : List Char :=
  (invitation.dropWhile (fun c => decide (c ≠ '/'))).drop 1

/-- The shape of a node name that can be written as `Name = <name>` and read
back by the scanner: no line feed, no blank or tab in front, and short enough
for the line buffer. Identifiers of letters, digits and underscores of less
than 1000 characters have it. -/
def plain_name (s : List Char) : Prop :=
  '\n' ∉ s ∧ s.head? ≠ some ' ' ∧ s.head? ≠ some '\t' ∧ s.length < 1000

instance (s : List Char) : Decidable (plain_name s) :=
  inferInstanceAs (Decidable (_ ∧ _))

/-- The conditions under which `cmd_join` gets as far as comparing the digest
of the peer's key with the hash of the URL: the arguments and the URL are
accepted (as `u`), the throw-away key, the address, the socket and the
connection are obtained, the greeting is sent, the peer's two lines pass the
greeting check with acknowledgement line `line`, and the digest can be opened. -/
def reaches_pinning (E : Env) (u : Url) (line : List Char) : Prop :=
  E.argc ≤ 2 ∧ E.mkdir_confdir_ok = true ∧
  (read_invitation E).bind (parse_url E.b64decode) = some u ∧
  E.ecdsa_generate_ok = true ∧ E.str2addrinfo_ok u.address u.port = true ∧
  E.socket_ok = true ∧ E.connect_ok = true ∧ (hello E).length < 4096 ∧
  E.sendline_ok = true ∧ greeting E = some line ∧ E.digest_open_ok = true

instance (E : Env) (u : Url) (line : List Char) : Decidable (reaches_pinning E u line) :=
  inferInstanceAs (Decidable (_ ∧ _))

instance (l : List Char) : Decidable (line_ok l) :=
  inferInstanceAs (Decidable (l.length < LINE_SIZE ∧ ∀ c ∈ l.head?, isprint c = true))

/-! ## The scanner and the lines of the text -/

theorem lines_cons_ne (c : Char) (rest : List Char) :
    lines (c :: rest) =
      (c :: rest).take (strcspn (c :: rest) ['\n']) ::
        (if strcspn (c :: rest) ['\n'] < (c :: rest).length
          then lines ((c :: rest).drop (strcspn (c :: rest) ['\n'] + 1)) else []) := by
  induction rest generalizing c with
  | nil =>
    by_cases hc : c = '\n'
    · subst hc; simp [lines, strcspn]
    · simp [lines, strcspn, hc]
  | cons d rest ih =>
    by_cases hc : c = '\n'
    · subst hc; simp [lines, strcspn]
    · have := ih d
      rw [lines, if_neg hc, this]
      simp only [strcspn] at *
      simp [List.takeWhile, hc]

theorem strcspn_le (s r : List Char) : strcspn s r ≤ s.length := by
  unfold strcspn
  exact (List.takeWhile_sublist _).length_le

theorem lines_length_le (d : List Char) : (lines d).length ≤ d.length := by
  induction d with
  | nil => simp [lines]
  | cons c rest ih =>
    unfold lines
    by_cases hc : c = '\n'
    · simp [hc]; exact ih
    · simp only [hc, if_false]
      cases h : lines rest with
      | nil => simp
      | cons l ls =>
        rw [h] at ih
        simp only [List.length_cons] at ih ⊢
        omega

theorem plines_eq_nil {p : Option (List Char)} (h : plines p = []) :
    (get_line p).1 = Line.null := by
  match p with
  | none => rfl
  | some [] => rfl
  | some (c :: rest) => rw [plines, lines_cons_ne] at h; simp at h

theorem get_line_of_plines {p : Option (List Char)} {l : List Char} {ls : List (List Char)}
    (h : plines p = l :: ls) (hl : line_ok l) :
    ∃ p1, get_line p = (Line.some l, p1) ∧ plines p1 = ls := by
  match p with
  | none => simp [plines] at h
  | some [] => simp [plines, lines] at h
  | some (c :: rest) =>
    rw [plines, lines_cons_ne] at h
    simp only [List.cons.injEq] at h
    obtain ⟨h1, h2⟩ := h
    have hlen : strcspn (c :: rest) ['\n'] = l.length := by
      rw [← h1, List.length_take]
      have := strcspn_le (c :: rest) ['\n']
      omega
    obtain ⟨hlt, hpr⟩ := hl
    simp only [get_line]
    rw [if_neg (by rw [hlen]; unfold LINE_SIZE at *; omega)]
    have hnab : ¬ (strcspn (c :: rest) ['\n'] ≠ 0 ∧ isprint c = false) := by
      rintro ⟨hne, hp⟩
      have : l.head? = some c := by
        rw [← h1]
        cases hk : strcspn (c :: rest) ['\n'] with
        | zero => exact absurd hk hne
        | succ k => simp
      have := hpr c (by simp [this])
      simp [hp] at this
    rw [if_neg hnab]
    by_cases hlt2 : strcspn (c :: rest) ['\n'] < (c :: rest).length
    · rw [if_pos hlt2]; rw [if_pos hlt2] at h2
      exact ⟨some _, by rw [h1], h2⟩
    · rw [if_neg hlt2]; rw [if_neg hlt2] at h2
      exact ⟨_, by rw [h1], by simpa [plines] using h2⟩

theorem comment_not_name {l : List Char} (hc : l.head? = some '#') : is_name l = false := by
  match l, hc with
  | c :: rest, hc =>
    simp only [List.head?_cons, Option.some.injEq] at hc
    subst hc
    simp [is_name, split_directive, strcspn, strcasecmp, List.takeWhile, cs]

theorem first_chunk_lines_cons {name l : List Char} {ls : List (List Char)}
    (h : is_foreign_name name l = false) :
    first_chunk_lines name (l :: ls) = l :: first_chunk_lines name ls := by
  simp [first_chunk_lines, List.takeWhile, h]

theorem dropWhile_foreign_cons {name l : List Char} {ls : List (List Char)}
    (h : is_foreign_name name l = false) :
    (l :: ls).dropWhile (fun l => !is_foreign_name name l)
      = ls.dropWhile (fun l => !is_foreign_name name l) := by
  simp [List.dropWhile, h]

theorem routed_text_cons (vars : List var_t) (b : Bool) (l : List Char) (ls : List (List Char)) :
    routed_text vars b (l :: ls)
      = (if routed vars b l then directive_text l else []) ++ routed_text vars b ls := by
  unfold routed_text
  by_cases h : routed vars b l = true
  · simp [List.filter, h]
  · simp [List.filter, h]

theorem first_chunk_spec (vars : List var_t) (name : List Char) :
    ∀ (ls : List (List Char)) (fuel : Nat) (p : Option (List Char)) (value : List Char)
      (out : List Char × List Char),
      plines p = ls → (∀ l ∈ ls, line_ok l) → ls.length < fuel →
      ∃ c, first_chunk vars name fuel p value out =
          Loop.done c (out.1 ++ routed_text vars false (first_chunk_lines name ls),
                       out.2 ++ routed_text vars true (first_chunk_lines name ls)) ∧
        plines c.p = (ls.dropWhile (fun l => !is_foreign_name name l)).tail ∧
        (match ls.dropWhile (fun l => !is_foreign_name name l) with
          | [] => c.l = none
          | F :: _ => c.l = some (split_directive F).1 ∧ c.value = (split_directive F).2) := by
  intro ls
  induction ls with
  | nil =>
    intro fuel p value out hp _ hf
    obtain ⟨k, rfl⟩ : ∃ k, fuel = k + 1 := ⟨fuel - 1, by omega⟩
    have h := plines_eq_nil hp
    refine ⟨⟨none, value, (get_line p).2⟩, ?_, ?_, ?_⟩
    · rw [first_chunk]
      generalize hg : get_line p = g at h
      obtain ⟨g1, g2⟩ := g
      simp only at h; subst h
      simp [routed_text, first_chunk_lines]
    · match p, hp with
      | none, _ => simp [get_line, plines]
      | some [], _ => simp [get_line, plines]
      | some (c :: rest), hp => rw [plines, lines_cons_ne] at hp; simp at hp
    · simp
  | cons l ls ih =>
    intro fuel p value out hp hok hf
    obtain ⟨k, rfl⟩ : ∃ k, fuel = k + 1 := ⟨fuel - 1, by omega⟩
    obtain ⟨p1, hg, hp1⟩ := get_line_of_plines hp (hok l (by simp))
    have hok' : ∀ l ∈ ls, line_ok l := fun x hx => hok x (by simp [hx])
    have hk : ls.length < k := by simp at hf; omega
    rw [first_chunk, hg]
    simp only
    by_cases hc : l.head? = some '#'
    · -- comment
      have hnn : is_name l = false := comment_not_name hc
      have hfor : is_foreign_name name l = false := by simp [is_foreign_name, hnn]
      have hr : ∀ b, routed vars b l = false := by intro b; simp [routed, hc]
      obtain ⟨c, h1, h2, h3⟩ := ih k p1 value out hp1 hok' hk
      refine ⟨c, ?_, ?_, ?_⟩
      · rw [if_pos hc, h1, first_chunk_lines_cons hfor, routed_text_cons, routed_text_cons]
        simp [hr]
      · rw [dropWhile_foreign_cons hfor]; exact h2
      · rw [dropWhile_foreign_cons hfor]; exact h3
    · rw [if_neg hc]
      by_cases hn : strcasecmp (split_directive l).1 (cs "Name") = true
      · -- not a Name directive
        have hnn : is_name l = false := by simp [is_name, hn]
        have hfor : is_foreign_name name l = false := by simp [is_foreign_name, hnn]
        simp only [hn, Bool.not_true, Bool.false_eq_true, if_false]
        by_cases hnet : strcasecmp (split_directive l).1 (cs "NetName") = true
        · simp only [hnet, Bool.not_true, Bool.false_eq_true, if_false]
          cases hfv : find_variable vars (split_directive l).1 with
          | none =>
            have hr : ∀ b, routed vars b l = false := by intro b; simp [routed, hfv]
            obtain ⟨c, h1, h2, h3⟩ := ih k p1 (split_directive l).2 out hp1 hok' hk
            refine ⟨c, ?_, ?_, ?_⟩
            · simp only [h1, first_chunk_lines_cons hfor, routed_text_cons]
              simp [hr]
            · rw [dropWhile_foreign_cons hfor]; exact h2
            · rw [dropWhile_foreign_cons hfor]; exact h3
          | some v =>
            simp only
            by_cases hs : v.safe = true
            · simp only [hs, Bool.not_true, Bool.false_eq_true, if_false]
              by_cases hh : v.host = true
              · have hr1 : routed vars true l = true := by simp [routed, hfv, hc, hnn, hnet, hs, hh]
                have hr2 : routed vars false l = false := by simp [routed, hfv, hs, hh]
                obtain ⟨c, h1, h2, h3⟩ := ih k p1 (split_directive l).2
                  (out.1, out.2 ++ ((split_directive l).1 ++ cs " = " ++ (split_directive l).2 ++ cs "\n"))
                  hp1 hok' hk
                refine ⟨c, ?_, ?_, ?_⟩
                · simp only [hh, if_true, h1, first_chunk_lines_cons hfor, routed_text_cons]
                  simp [hr1, hr2, directive_text]
                · rw [dropWhile_foreign_cons hfor]; exact h2
                · rw [dropWhile_foreign_cons hfor]; exact h3
              · have hr1 : routed vars true l = false := by simp [routed, hfv, hs, hh]
                have hr2 : routed vars false l = true := by
                  simp [routed, hfv, hc, hnn, hnet, hs, hh]
                obtain ⟨c, h1, h2, h3⟩ := ih k p1 (split_directive l).2
                  (out.1 ++ ((split_directive l).1 ++ cs " = " ++ (split_directive l).2 ++ cs "\n"), out.2)
                  hp1 hok' hk
                refine ⟨c, ?_, ?_, ?_⟩
                · simp only [hh, Bool.false_eq_true, if_false, h1, first_chunk_lines_cons hfor,
                    routed_text_cons]
                  simp [hr1, hr2, directive_text]
                · rw [dropWhile_foreign_cons hfor]; exact h2
                · rw [dropWhile_foreign_cons hfor]; exact h3
            · have hr : ∀ b, routed vars b l = false := by intro b; simp [routed, hfv, hs]
              obtain ⟨c, h1, h2, h3⟩ := ih k p1 (split_directive l).2 out hp1 hok' hk
              refine ⟨c, ?_, ?_, ?_⟩
              · simp only [hs, Bool.not_false, if_true, h1, first_chunk_lines_cons hfor,
                  routed_text_cons]
                simp [hr]
              · rw [dropWhile_foreign_cons hfor]; exact h2
              · rw [dropWhile_foreign_cons hfor]; exact h3
        · have hr : ∀ b, routed vars b l = false := by intro b; simp [routed, hnet]
          obtain ⟨c, h1, h2, h3⟩ := ih k p1 (split_directive l).2 out hp1 hok' hk
          refine ⟨c, ?_, ?_, ?_⟩
          · simp only [hnet, Bool.not_false, if_true, h1, first_chunk_lines_cons hfor,
              routed_text_cons]
            simp [hr]
          · rw [dropWhile_foreign_cons hfor]; exact h2
          · rw [dropWhile_foreign_cons hfor]; exact h3
      · -- a Name directive
        have hnn : is_name l = true := by simp [is_name, hn]
        simp only [hn, Bool.not_false, if_true]
        by_cases hv : strcmp (split_directive l).2 name = true
        · have hfor : is_foreign_name name l = true := by simp [is_foreign_name, hnn, hv]
          refine ⟨⟨some (split_directive l).1, (split_directive l).2, p1⟩, ?_, ?_, ?_⟩
          · simp [hv, first_chunk_lines, List.takeWhile, hfor, routed_text]
          · simp [List.dropWhile, hfor, hp1]
          · simp [List.dropWhile, hfor]
        · have hfor : is_foreign_name name l = false := by simp [is_foreign_name, hv]
          have hr : ∀ b, routed vars b l = false := by intro b; simp [routed, hnn]
          obtain ⟨c, h1, h2, h3⟩ := ih k p1 (split_directive l).2 out hp1 hok' hk
          refine ⟨c, ?_, ?_, ?_⟩
          · simp only [hv, Bool.false_eq_true, if_false, h1, first_chunk_lines_cons hfor,
              routed_text_cons]
            simp [hr]
          · rw [dropWhile_foreign_cons hfor]; exact h2
          · rw [dropWhile_foreign_cons hfor]; exact h3

theorem name_test_iff (l : List Char) :
    (strcspn l (cs "\t =") = 4 ∧ strncasecmp l (cs "Name") 4 = false) ↔ is_name l = true := by
  have hlen := strcspn_le l (cs "\t =")
  constructor
  · rintro ⟨h4, hn⟩
    simp only [is_name, split_directive, h4]
    simpa [strncasecmp, cs] using hn
  · intro h
    simp only [is_name, split_directive, Bool.not_eq_true', strcasecmp, bne_eq_false_iff_eq] at h
    have h2 := congrArg List.length h
    simp only [List.length_map, List.length_take] at h2
    have h4 : strcspn l (cs "\t =") = 4 := by
      have : (cs "Name").length = 4 := by decide
      omega
    refine ⟨h4, ?_⟩
    rw [h4] at h
    simpa [strncasecmp, strcasecmp, cs] using h

theorem separator_not_name : is_name SEPARATOR = false := by decide

theorem unlines_append (a b : List (List Char)) : unlines (a ++ b) = unlines a ++ unlines b := by
  induction a with
  | nil => rfl
  | cons l ls ih => simp [unlines, ih]

theorem chunk_text_cons {l : List Char} (ls : List (List Char)) (h : is_name l = false) :
    chunk_text (l :: ls)
      = (if strcmp l SEPARATOR then l ++ cs "\n" else []) ++ chunk_text ls := by
  unfold chunk_text
  by_cases hs : strcmp l SEPARATOR = true
  · simp [List.takeWhile, h, List.filter, hs, unlines, cs]
  · simp [List.takeWhile, h, List.filter, hs]

theorem copy_chunk_spec :
    ∀ (ls : List (List Char)) (fuel : Nat) (p : Option (List Char)) (value f : List Char),
      plines p = ls → (∀ l ∈ ls, line_ok l) → ls.length < fuel →
      ∃ c, copy_chunk fuel p value f = Loop.done c (f ++ chunk_text ls) ∧
        plines c.p = (ls.dropWhile (fun l => !is_name l)).tail ∧
        (match ls.dropWhile (fun l => !is_name l) with
          | [] => c.l = none
          | N :: _ => c.l = some (split_directive N).1 ∧ c.value = (split_directive N).2) := by
  intro ls
  induction ls with
  | nil =>
    intro fuel p value f hp _ hf
    obtain ⟨k, rfl⟩ : ∃ k, fuel = k + 1 := ⟨fuel - 1, by omega⟩
    have h := plines_eq_nil hp
    refine ⟨⟨none, value, (get_line p).2⟩, ?_, ?_, ?_⟩
    · rw [copy_chunk]
      generalize hg : get_line p = g at h
      obtain ⟨g1, g2⟩ := g
      simp only at h; subst h
      simp [chunk_text, unlines]
    · match p, hp with
      | none, _ => simp [get_line, plines]
      | some [], _ => simp [get_line, plines]
      | some (c :: rest), hp => rw [plines, lines_cons_ne] at hp; simp at hp
    · simp
  | cons l ls ih =>
    intro fuel p value f hp hok hf
    obtain ⟨k, rfl⟩ : ∃ k, fuel = k + 1 := ⟨fuel - 1, by omega⟩
    obtain ⟨p1, hg, hp1⟩ := get_line_of_plines hp (hok l (by simp))
    have hok' : ∀ l ∈ ls, line_ok l := fun x hx => hok x (by simp [hx])
    have hk : ls.length < k := by simp at hf; omega
    rw [copy_chunk, hg]
    simp only
    by_cases hs : strcmp l SEPARATOR = true
    · simp only [hs, Bool.not_true, Bool.false_eq_true, if_false]
      by_cases hn : is_name l = true
      · have hn' := (name_test_iff l).mpr hn
        rw [if_pos hn']
        refine ⟨⟨some (split_directive l).1, (split_directive l).2, p1⟩, ?_, ?_, ?_⟩
        · simp [chunk_text, List.takeWhile, hn, unlines]
        · simp [List.dropWhile, hn, hp1]
        · simp [List.dropWhile, hn]
      · have hn' : ¬ (strcspn l (cs "\t =") = 4 ∧ strncasecmp l (cs "Name") 4 = false) :=
          fun h => hn ((name_test_iff l).mp h)
        have hnf : is_name l = false := by simpa using hn
        rw [if_neg hn']
        obtain ⟨c, h1, h2, h3⟩ := ih k p1 value (f ++ l ++ cs "\n") hp1 hok' hk
        refine ⟨c, ?_, ?_, ?_⟩
        · rw [h1, chunk_text_cons ls hnf]; simp [hs]
        · simpa [List.dropWhile, hnf] using h2
        · simpa [List.dropWhile, hnf] using h3
    · have hnf : is_name l = false := by
        have : l = SEPARATOR := by simpa [strcmp] using hs
        rw [this]; exact separator_not_name
      simp only [hs, Bool.not_false, if_true]
      obtain ⟨c, h1, h2, h3⟩ := ih k p1 value f hp1 hok' hk
      refine ⟨c, ?_, ?_, ?_⟩
      · rw [h1, chunk_text_cons ls hnf]; simp [hs]
      · simpa [List.dropWhile, hnf] using h2
      · simpa [List.dropWhile, hnf] using h3

/-- Facts about the first element on which a predicate fails. -/
theorem dropWhile_cons_facts {α : Type} (q : α → Bool) (ls : List α) (N : α) (rest : List α)
    (h : ls.dropWhile q = N :: rest) :
    q N = false ∧ N ∈ ls ∧ rest.length + 1 ≤ ls.length ∧ (∀ x ∈ rest, x ∈ ls) ∧
      (∀ x ∈ ls, q x = true ∨ x = N ∨ x ∈ rest) := by
  have hne : ls.dropWhile q ≠ [] := by rw [h]; simp
  have h1 := List.head_dropWhile_not q ls hne
  have hsub : List.Sublist (N :: rest) ls := h ▸ List.dropWhile_sublist q
  have hsplit := List.takeWhile_append_dropWhile q ls
  refine ⟨?_, ?_, ?_, ?_, ?_⟩
  · simpa [h] using h1
  · exact hsub.subset (by simp)
  · simpa using hsub.length_le
  · intro x hx; exact hsub.subset (by simp [hx])
  · intro x hx
    rw [← hsplit, List.mem_append, h] at hx
    rcases hx with hx | hx
    · exact Or.inl (List.mem_takeWhile_imp hx)
    · simp only [List.mem_cons] at hx
      rcases hx with hx | hx
      · exact Or.inr (Or.inl hx)
      · exact Or.inr (Or.inr hx)

theorem secondary_spec (check_id fopen_ok : List Char → Bool) (name hosts_dir : List Char) :
    ∀ (fuel : Nat) (ls : List (List Char)) (c : Cursor) (files : List (List Char × List Char)),
      plines c.p = ls → (∀ l ∈ ls, line_ok l) → ls.length + 1 < fuel →
      (∀ l, c.l = some l → strcasecmp l (cs "Name") = false) →
      ∃ more,
        ((secondary_chunks check_id fopen_ok name hosts_dir fuel c files
            = Secondary.fail (files ++ more) ∧ c.l ≠ none) ∨
          (secondary_chunks check_id fopen_ok name hosts_dir fuel c files
              = Secondary.done (files ++ more) ∧
            (c.l = none ∨ (c.value ≠ name ∧
              ∀ O ∈ ls, is_name O = true → (split_directive O).2 ≠ name)))) ∧
        ∀ f ∈ more, ∃ v, v ≠ name ∧ f.1 = hosts_dir ++ SLASH ++ v := by
  intro fuel
  induction fuel with
  | zero => intro ls c files _ _ hf; omega
  | succ k ih =>
    intro ls c files hp hok hf hl
    rw [secondary_chunks]
    cases hcl : c.l with
    | none => exact ⟨[], Or.inr ⟨by simp, Or.inl rfl⟩, by simp⟩
    | some l =>
      simp only [hl l hcl, Bool.false_eq_true, if_false]
      by_cases hid : check_id c.value = true
      swap
      · exact ⟨[], Or.inl ⟨by simp [hid], by simp [hcl]⟩, by simp⟩
      simp only [hid, Bool.not_true, Bool.false_eq_true, if_false]
      by_cases hv : strcmp c.value name = true
      swap
      · exact ⟨[], Or.inl ⟨by simp [hv], by simp [hcl]⟩, by simp⟩
      have hvn : c.value ≠ name := by simpa [strcmp] using hv
      simp only [hv, Bool.not_true, Bool.false_eq_true, if_false]
      by_cases hfo : fopen_ok (hosts_dir ++ SLASH ++ c.value) = true
      swap
      · have hfo' : fopen_ok (hosts_dir ++ SLASH ++ c.value) = false := by simpa using hfo
        exact ⟨[], Or.inl ⟨by simp only [hfo', Bool.not_false, ↓reduceIte, List.append_nil],
          by simp [hcl]⟩, by simp⟩
      simp only [hfo, Bool.not_true, Bool.false_eq_true, if_false]
      obtain ⟨c1, h1, h2, h3⟩ := copy_chunk_spec ls k c.p c.value [] hp hok (by omega)
      rw [h1]
      simp only
      cases hd : ls.dropWhile (fun l => !is_name l) with
      | nil =>
        rw [hd] at h3 h2
        simp only at h3
        have hall : ∀ x ∈ ls, is_name x = false := by
          intro x hx
          have := (List.dropWhile_eq_nil_iff.mp hd) x hx
          simpa using this
        obtain ⟨j, rfl⟩ : ∃ j, k = j + 1 := ⟨k - 1, by omega⟩
        refine ⟨[(hosts_dir ++ SLASH ++ c.value, [] ++ chunk_text ls)], Or.inr ⟨?_, Or.inr ⟨hvn, ?_⟩⟩, ?_⟩
        · rw [secondary_chunks, h3]
        · intro O hO hn; rw [hall O hO] at hn; exact absurd hn (by simp)
        · intro f hf'
          simp only [List.mem_singleton] at hf'
          exact ⟨c.value, hvn, by rw [hf']⟩
      | cons N rest =>
        rw [hd] at h3 h2
        simp only [List.tail_cons] at h3 h2
        obtain ⟨hN, hNmem, hlen, hrest, hcover⟩ := dropWhile_cons_facts _ ls N rest hd
        have hNn : is_name N = true := by simpa using hN
        obtain ⟨more, hres, hmore⟩ := ih rest c1
          (files ++ [(hosts_dir ++ SLASH ++ c.value, [] ++ chunk_text ls)]) h2
          (fun x hx => hok x (hrest x hx)) (by omega)
          (by
            intro l' hl'
            rw [h3.1] at hl'
            simp only [Option.some.injEq] at hl'
            rw [← hl']
            simpa [is_name] using hNn)
        refine ⟨(hosts_dir ++ SLASH ++ c.value, [] ++ chunk_text ls) :: more, ?_, ?_⟩
        · rcases hres with ⟨hres, _⟩ | ⟨hres, hcond⟩
          · exact Or.inl ⟨by rw [hres]; simp, by simp [hcl]⟩
          · refine Or.inr ⟨by rw [hres]; simp, Or.inr ⟨hvn, ?_⟩⟩
            rcases hcond with hnone | ⟨hc1v, hO⟩
            · rw [h3.1] at hnone; exact absurd hnone (by simp)
            · intro O hOmem hOn
              rcases hcover O hOmem with hq | hq | hq
              · simp [hOn] at hq
              · rw [hq, ← h3.2]; exact hc1v
              · exact hO O hq hOn
        · intro f hf'
          simp only [List.mem_cons] at hf'
          rcases hf' with hf' | hf'
          · exact ⟨c.value, hvn, by rw [hf']⟩
          · exact hmore f hf'

/-- What `write_chunks` does on a text whose lines the scanner accepts. -/
theorem write_chunks_spec (E : JoinEnv) (name confbase data : List Char) (r : JoinResult)
    (hok : ∀ l ∈ lines data, line_ok l) :
    ∃ more : List (List Char × List Char),
      (∀ f ∈ more, ∃ v, v ≠ name ∧ f.1 = confbase ++ SLASH ++ cs "hosts" ++ SLASH ++ v) ∧
      ((E.fopen_ok (confbase ++ SLASH ++ cs "tinc.conf") = false ∧
          write_chunks E name confbase (some data) r = r) ∨
       (E.fopen_ok (confbase ++ SLASH ++ cs "hosts" ++ SLASH ++ name) = false ∧
        write_chunks E name confbase (some data) r =
          { r with tinc_conf := some (confbase ++ SLASH ++ cs "tinc.conf",
                      cs "Name = " ++ name ++ cs "\n") }) ∨
       ((∃ F ∈ lines data, is_foreign_name name F = true) ∧
        write_chunks E name confbase (some data) r =
          { r with
            tinc_conf := some (confbase ++ SLASH ++ cs "tinc.conf",
              cs "Name = " ++ name ++ cs "\n"
                ++ routed_text E.vars false (first_chunk_lines name (lines data)))
            host := some (confbase ++ SLASH ++ cs "hosts" ++ SLASH ++ name,
              routed_text E.vars true (first_chunk_lines name (lines data)))
            secondary := more }) ∨
       (write_chunks E name confbase (some data) r =
          provision_keys E confbase (confbase ++ SLASH ++ cs "hosts" ++ SLASH ++ name)
            (routed_text E.vars true (first_chunk_lines name (lines data)))
            { r with
              tinc_conf := some (confbase ++ SLASH ++ cs "tinc.conf",
                cs "Name = " ++ name ++ cs "\n"
                  ++ routed_text E.vars false (first_chunk_lines name (lines data)))
              host := some (confbase ++ SLASH ++ cs "hosts" ++ SLASH ++ name,
                routed_text E.vars true (first_chunk_lines name (lines data)))
              secondary := more } ∧
        ∀ O ∈ ((lines data).dropWhile (fun l => !is_foreign_name name l)).tail,
          is_name O = true → (split_directive O).2 ≠ name)) := by
  unfold write_chunks
  simp only
  by_cases h1 : E.fopen_ok (confbase ++ SLASH ++ cs "tinc.conf") = true
  swap
  · have h1' : E.fopen_ok (confbase ++ SLASH ++ cs "tinc.conf") = false := by simpa using h1
    exact ⟨[], by simp, Or.inl ⟨h1', by simp only [h1', Bool.not_false, ↓reduceIte]⟩⟩
  by_cases h2 : E.fopen_ok (confbase ++ SLASH ++ cs "hosts" ++ SLASH ++ name) = true
  swap
  · have h2' : E.fopen_ok (confbase ++ SLASH ++ cs "hosts" ++ SLASH ++ name) = false := by
      simpa using h2
    exact ⟨[], by simp, Or.inr (Or.inl ⟨h2', by
      simp only [h1, h2', Bool.not_true, Bool.not_false, Bool.false_eq_true, ↓reduceIte]⟩)⟩
  simp only [h1, h2, Bool.not_true, Bool.false_eq_true, ↓reduceIte, Option.getD_some]
  have hlen := lines_length_le data
  obtain ⟨c, hc1, hc2, hc3⟩ := first_chunk_spec E.vars name (lines data) (data.length + 2)
    (some data) [] (cs "Name = " ++ name ++ cs "\n", []) rfl hok (by omega)
  rw [hc1]
  simp only [List.nil_append]
  have hcl : ∀ l, c.l = some l → strcasecmp l (cs "Name") = false := by
    intro l hl
    cases hd : (lines data).dropWhile (fun l => !is_foreign_name name l) with
    | nil => rw [hd] at hc3; simp only at hc3; rw [hc3] at hl; exact absurd hl (by simp)
    | cons N rest =>
      rw [hd] at hc3
      simp only at hc3
      have hN := (dropWhile_cons_facts _ _ N rest hd).1
      rw [hc3.1] at hl
      simp only [Option.some.injEq] at hl
      rw [← hl]
      simp only [Bool.not_eq_false', is_foreign_name, Bool.and_eq_true, is_name,
        Bool.not_eq_true'] at hN
      exact hN.1
  have hlen2 : ((lines data).dropWhile (fun l => !is_foreign_name name l)).tail.length + 1
      < data.length + 2 := by
    have := (List.dropWhile_sublist (fun l => !is_foreign_name name l) (l := lines data)).length_le
    simp only [List.length_tail]
    omega
  obtain ⟨more, hres, hmore⟩ := secondary_spec E.check_id E.fopen_ok name
    (confbase ++ SLASH ++ cs "hosts") (data.length + 2) _ c [] hc2
    (fun x hx => hok x ((List.dropWhile_sublist _).subset (List.mem_of_mem_tail hx)))
    hlen2 hcl
  refine ⟨more, hmore, ?_⟩
  rcases hres with ⟨hres, hsome⟩ | ⟨hres, hcond⟩
  · rw [hres]
    refine Or.inr (Or.inr (Or.inl ⟨?_, by simp⟩))
    cases hd : (lines data).dropWhile (fun l => !is_foreign_name name l) with
    | nil => rw [hd] at hc3; simp only at hc3; exact absurd hc3 hsome
    | cons N rest =>
      have hN := dropWhile_cons_facts _ _ N rest hd
      exact ⟨N, hN.2.1, by simpa using hN.1⟩
  · rw [hres]
    refine Or.inr (Or.inr (Or.inr ⟨by simp, ?_⟩))
    rcases hcond with hnone | ⟨_, hO⟩
    · cases hd : (lines data).dropWhile (fun l => !is_foreign_name name l) with
      | nil => simp
      | cons N rest =>
        rw [hd] at hc3; simp only at hc3
        rw [hc3.1] at hnone; exact absurd hnone (by simp)
    · exact hO

theorem mem_tail_dropWhile {α : Type} (q : α → Bool) (F O : α) (X : List α)
    (hF : q F = false) (hO : O ∈ X) :
    ∀ pre : List α, O ∈ ((pre ++ F :: X).dropWhile q).tail := by
  intro pre
  induction pre with
  | nil => simpa [List.dropWhile, hF] using hO
  | cons a pre ih =>
    by_cases ha : q a = true
    · simpa [List.dropWhile, ha] using ih
    · have ha' : q a = false := by simpa using ha
      simp [List.dropWhile, ha', hO]

theorem ask_netname_length {stdin rest : List (List Char)} {answer : List Char}
    (h : ask_netname stdin = some (answer, rest)) : rest.length < stdin.length := by
  induction stdin with
  | nil => simp [ask_netname] at h
  | cons line more ih =>
    rw [ask_netname] at h
    split at h
    · have := ih h; simp only [List.length_cons]; omega
    · simp only [Option.some.injEq, Prod.mk.injEq] at h
      rw [← h.2]; simp

theorem resolve_names_fuel (E : JoinEnv) :
    ∀ (fuel : Nat) (netname : Option (List Char)) (stdin : List (List Char))
      (made : List (Option (List Char))),
      stdin.length < fuel → resolve_names E fuel netname stdin made ≠ Names.fuel := by
  intro fuel
  induction fuel with
  | zero => intro _ _ _ h; omega
  | succ k ih =>
    intro netname stdin made h
    rw [resolve_names]
    generalize (if E.confbasegiven = true then E.confbase else E.make_names netname) = cb
    by_cases ha : E.access_ok (cb ++ SLASH ++ cs "tinc.conf") = true
    · rw [if_pos ha]
      by_cases ht : (!E.tty || E.confbasegiven) = true
      · rw [if_pos ht]; intro h; cases h
      · rw [if_neg ht]
        cases hask : ask_netname stdin with
        | none => intro h; cases h
        | some ar =>
          obtain ⟨answer, rest⟩ := ar
          exact ih _ _ _ (by have := ask_netname_length hask; omega)
    · rw [if_neg ha]; intro h; cases h

/-- On a file system without configuration where `mkdir` succeeds, `finalize_join`
comes down to `write_chunks` on a configuration root it has just made. -/
theorem finalize_join_fresh (E : JoinEnv) (success : Bool) (data n : List Char)
    (hname : get_value (some data) (cs "Name") = Value.val n)
    (hid : E.check_id n = true)
    (hacc : ∀ p, E.access_ok p = false) (hmk : ∀ p, E.mkdir_ok p = true) :
    ∃ confbase made,
      finalize_join E success (some data) =
        write_chunks E n confbase (some data)
          { outcome := Outcome.ret false, success := success, made_names := made,
            mkdirs := [confbase, confbase ++ SLASH ++ cs "hosts"],
            tinc_conf := none, host := none, secondary := [], keyfiles := [], sent := [] } := by
  unfold finalize_join
  rw [hname]
  simp only [hid, Bool.not_true, Bool.false_eq_true, ↓reduceIte]
  rw [resolve_names]
  simp only [hacc, Bool.false_eq_true, ↓reduceIte, hmk, Bool.not_true]
  exact ⟨_, _, rfl⟩

/-! ## The loops end -/

/-- Reading a line leaves strictly less text behind the pointer. -/
theorem get_line_some_shorter {p p1 : Option (List Char)} {l : List Char}
    (h : get_line p = (Line.some l, p1)) : msr p1 < msr p := by
  match p with
  | none => simp [get_line] at h
  | some [] => simp [get_line] at h
  | some (c :: rest) =>
    simp only [get_line] at h
    split at h
    · simp at h
    · split at h
      · simp at h
      · split at h
        · simp only [Prod.mk.injEq, Line.some.injEq] at h
          rw [← h.2]
          simp only [msr, List.length_drop, List.length_cons]
          omega
        · simp only [Prod.mk.injEq, Line.some.injEq] at h
          rw [← h.2]
          simp [msr]

theorem get_line_null_le {p p1 : Option (List Char)}
    (h : get_line p = (Line.null, p1)) : msr p1 ≤ msr p := by
  match p with
  | none => simp only [get_line, Prod.mk.injEq, true_and] at h; rw [← h]
  | some [] => simp only [get_line, Prod.mk.injEq, true_and] at h; rw [← h]; simp [msr]
  | some (c :: rest) =>
    simp only [get_line] at h
    split at h
    · simp only [Prod.mk.injEq, true_and] at h; rw [← h]
    · split at h
      · simp at h
      · split at h <;> simp at h

theorem loop_ends_mono {α : Type} {r : Loop α} {b b' : Nat} (h : loop_ends r b)
    (hb : b ≤ b') : loop_ends r b' := by
  cases r with
  | abort a => trivial
  | fuel => exact h
  | done c a =>
    simp only [loop_ends] at h ⊢
    rcases h with ⟨h1, h2⟩ | ⟨h1, h2⟩
    · exact Or.inl ⟨h1, by omega⟩
    · exact Or.inr ⟨by omega, h2⟩

/-- The first loop of `finalize_join` ends whenever the fuel exceeds the text. -/
theorem first_chunk_ends (vars : List var_t) (name : List Char) :
    ∀ (fuel : Nat) (p : Option (List Char)) (value : List Char) (out : List Char × List Char),
      msr p < fuel → loop_ends (first_chunk vars name fuel p value out) (msr p) := by
  intro fuel
  induction fuel with
  | zero => intro p _ _ h; omega
  | succ k ih =>
    intro p value out hf
    rw [first_chunk]
    cases hg : get_line p with
    | mk r p1 =>
      cases r with
      | null =>
        simp only [loop_ends]
        exact Or.inl ⟨by first | rfl | trivial, get_line_null_le hg⟩
      | abort => trivial
      | some l =>
        have hlt := get_line_some_shorter hg
        have hrec : ∀ v o, loop_ends (first_chunk vars name k p1 v o) (msr p) :=
          fun v o => loop_ends_mono (ih p1 v o (by omega)) (by omega)
        simp only
        split
        · exact hrec _ _
        · split
          · split
            · rename_i hn _
              simp only [loop_ends]
              exact Or.inr ⟨hlt, fun l' hl' => by
                simp only [Option.some.injEq] at hl'
                rw [← hl']
                simpa using hn⟩
            · exact hrec _ _
          · split
            · exact hrec _ _
            · split
              · exact hrec _ _
              · split
                · exact hrec _ _
                · split
                  · exact hrec _ _
                  · exact hrec _ _

/-- The copying loop of `finalize_join` ends whenever the fuel exceeds the text. -/
theorem copy_chunk_ends :
    ∀ (fuel : Nat) (p : Option (List Char)) (value f : List Char),
      msr p < fuel → loop_ends (copy_chunk fuel p value f) (msr p) := by
  intro fuel
  induction fuel with
  | zero => intro p _ _ h; omega
  | succ k ih =>
    intro p value f hf
    rw [copy_chunk]
    cases hg : get_line p with
    | mk r p1 =>
      cases r with
      | null =>
        simp only [loop_ends]
        exact Or.inl ⟨by first | rfl | trivial, get_line_null_le hg⟩
      | abort => trivial
      | some l =>
        have hlt := get_line_some_shorter hg
        have hrec : ∀ v o, loop_ends (copy_chunk k p1 v o) (msr p) :=
          fun v o => loop_ends_mono (ih p1 v o (by omega)) (by omega)
        simp only
        split
        · exact hrec _ _
        · split
          · rename_i hn
            simp only [loop_ends]
            exact Or.inr ⟨hlt, fun l' hl' => by
              simp only [Option.some.injEq] at hl'
              rw [← hl']
              have := (name_test_iff l).mp hn
              simpa [is_name] using this⟩
          · exact hrec _ _

/-- The second phase of `finalize_join` ends whenever the fuel exceeds the text
by two (or by one when no chunk is pending). -/
theorem secondary_chunks_ends (check_id fopen_ok : List Char → Bool)
    (name hosts_dir : List Char) :
    ∀ (fuel : Nat) (c : Cursor) (files : List (List Char × List Char)),
      (c.l = none ∧ 0 < fuel) ∨ msr c.p + 1 < fuel →
      secondary_chunks check_id fopen_ok name hosts_dir fuel c files ≠ Secondary.fuel := by
  intro fuel
  induction fuel with
  | zero => intro c files h; rcases h with ⟨_, h⟩ | h <;> omega
  | succ k ih =>
    intro c files hf
    rw [secondary_chunks]
    cases hcl : c.l with
    | none => simp
    | some l =>
      have hf' : msr c.p + 1 < k + 1 := by
        rcases hf with ⟨h, _⟩ | h
        · rw [hcl] at h; exact absurd h (by simp)
        · exact h
      simp only
      split
      · simp
      · split
        · simp
        · split
          · simp
          · split
            · simp
            · have hce := copy_chunk_ends k c.p c.value [] (by omega)
              cases hcc : copy_chunk k c.p c.value [] with
              | abort f => simp
              | fuel => rw [hcc] at hce; exact absurd hce (by simp [loop_ends])
              | done c1 f =>
                rw [hcc] at hce
                simp only [loop_ends] at hce
                simp only
                apply ih
                rcases hce with ⟨h1, _⟩ | ⟨h1, _⟩
                · exact Or.inl ⟨h1, by omega⟩
                · exact Or.inr (by omega)

theorem provision_keys_total (E : JoinEnv) (confbase filename fh : List Char)
    (r : JoinResult) (h : r.outcome ≠ Outcome.fuel) :
    (provision_keys E confbase filename fh r).outcome ≠ Outcome.fuel := by
  unfold provision_keys
  split
  · exact h
  · split
    · exact h
    · split
      · exact h
      · simp

theorem write_chunks_total (E : JoinEnv) (name confbase : List Char)
    (data : Option (List Char)) (r : JoinResult) (h : r.outcome ≠ Outcome.fuel) :
    (write_chunks E name confbase data r).outcome ≠ Outcome.fuel := by
  have hm : msr data < (data.getD []).length + 2 := by
    cases data <;> simp [msr]
  have hfe := first_chunk_ends E.vars name ((data.getD []).length + 2) data []
    (cs "Name = " ++ name ++ cs "\n", []) hm
  unfold write_chunks
  simp only
  split
  · exact h
  · split
    · exact h
    · cases hfc : first_chunk E.vars name ((data.getD []).length + 2) data []
        (cs "Name = " ++ name ++ cs "\n", []) with
      | fuel => rw [hfc] at hfe; exact absurd hfe (by simp [loop_ends])
      | abort out => simp
      | done c out =>
        rw [hfc] at hfe
        simp only [loop_ends] at hfe
        have hse := secondary_chunks_ends E.check_id E.fopen_ok name
          (confbase ++ SLASH ++ cs "hosts") ((data.getD []).length + 2) c []
          (by
            rcases hfe with ⟨h1, _⟩ | ⟨h1, _⟩
            · exact Or.inl ⟨h1, by omega⟩
            · exact Or.inr (by omega))
        simp only
        cases hsc : secondary_chunks E.check_id E.fopen_ok name
          (confbase ++ SLASH ++ cs "hosts") ((data.getD []).length + 2) c [] with
        | fuel => exact absurd hsc hse
        | abort files => simp
        | fail files => exact h
        | done files => exact provision_keys_total E _ _ _ _ h

/-- `finalize_join` never runs out of the fuel it gives to its loops. -/
theorem finalize_join_total (E : JoinEnv) (success : Bool) (data : Option (List Char)) :
    (finalize_join E success data).outcome ≠ Outcome.fuel := by
  unfold finalize_join
  simp only
  split
  · simp
  · simp
  · split
    · simp
    · split
      · rename_i hfuel
        exact absurd hfuel (resolve_names_fuel E _ _ _ _ (by omega))
      · simp
      · split
        · simp
        · split
          · simp
          · exact write_chunks_total E _ _ _ _ (by simp)

theorem invitation_receive_total (E : Env) (st : State) (type : Nat) (msg : List Char) :
    (invitation_receive E st type msg).1 ≠ Outcome.fuel := by
  unfold invitation_receive
  split
  · simp
  · split
    · simp
    · split
      · exact finalize_join_total _ _ _
      · simp

theorem deliver_total (E : Env) :
    ∀ (records : List (Nat × List Char)) (st : State),
      (deliver E records st).1 ≠ Outcome.fuel := by
  intro records
  induction records with
  | nil => intro st; simp [deliver]
  | cons r rest ih =>
    intro st
    obtain ⟨type, msg⟩ := r
    rw [deliver]
    have h := invitation_receive_total E st type msg
    cases hr : invitation_receive E st type msg with
    | mk o st1 =>
      rw [hr] at h
      cases o with
      | ret b =>
        cases b with
        | true => exact ih st1
        | false => simp
      | aborted => simp
      | fuel => exact absurd rfl h

theorem sptps_receive_data_total (E : Env) (f : Feed) (st : State) :
    (sptps_receive_data E f st).1 ≠ Outcome.fuel := by
  unfold sptps_receive_data
  have h := deliver_total E f.records st
  cases hr : deliver E f.records st with
  | mk o st1 =>
    rw [hr] at h
    cases o with
    | ret b => cases b <;> simp
    | aborted => simp
    | fuel => exact absurd rfl h

theorem recv_loop_total (E : Env) :
    ∀ (recvs : List Recv) (st : State), (recv_loop E recvs st).1 ≠ Exit.fuel := by
  intro recvs
  induction recvs with
  | nil => intro st; simp only [recv_loop, join_close]; split <;> simp
  | cons r rest ih =>
    intro st
    cases r with
    | eintr => rw [recv_loop]; exact ih st
    | error => simp [recv_loop]
    | bytes f =>
      rw [recv_loop]
      have h := sptps_receive_data_total E f st
      cases hr : sptps_receive_data E f st with
      | mk o st1 =>
        rw [hr] at h
        cases o with
        | ret b =>
          cases b with
          | true => exact ih st1
          | false => simp [Exit.ofOutcome]
        | aborted => simp [Exit.ofOutcome]
        | fuel => exact absurd rfl h

theorem join_url_total (E : Env) (u : Url) (st : State) :
    (join_url E u st).1 ≠ Exit.fuel := by
  unfold join_url
  by_cases h4 : E.ecdsa_generate_ok = true
  swap
  · simp [h4]
  by_cases h5 : E.str2addrinfo_ok u.address u.port = true
  swap
  · simp [h4, h5]
  by_cases h6 : E.socket_ok = true
  swap
  · simp [h4, h5, h6]
  by_cases h7 : E.connect_ok = true
  swap
  · simp [h4, h5, h6, h7]
  by_cases h8 : (hello E).length ≥ 4096
  · simp [h4, h5, h6, h7, h8]
  by_cases h9 : E.sendline_ok = true
  swap
  · simp [h4, h5, h6, h7, h8, h9]
  cases hg : greeting E with
  | none => simp [h4, h5, h6, h7, h8, h9, hg]
  | some line =>
    by_cases h11 : E.digest_open_ok = true
    swap
    · simp [h4, h5, h6, h7, h8, h9, hg, h11]
    cases hd : E.digest_create (line.drop 2) with
    | none => simp [h4, h5, h6, h7, h8, h9, hg, h11, hd]
    | some hishash =>
      by_cases he : hishash.take 18 = st.session.hash.take 18
      swap
      · simp [h4, h5, h6, h7, h8, h9, hg, h11, hd, he]
      by_cases hk : E.ecdsa_set_base64_public_key_ok (line.drop 2) = true
      swap
      · simp [h4, h5, h6, h7, h8, h9, hg, h11, hd, he, hk]
      by_cases hs : E.sptps_start_ok = true
      swap
      · simp [h4, h5, h6, h7, h8, h9, hg, h11, hd, he, hk, hs]
      simp only [h4, h5, h6, h7, h8, h9, hg, h11, hd, he, hk, hs, Bool.not_true,
        Bool.false_eq_true, ↓reduceIte, ne_eq, not_true_eq_false]
      generalize hst : ({ session := st.session, events := _ } : State) = st0
      have h := sptps_receive_data_total E E.buffered st0
      cases hr : sptps_receive_data E E.buffered st0 with
      | mk o st1 =>
        rw [hr] at h
        cases o with
        | ret b =>
          cases b with
          | true => exact recv_loop_total E _ _
          | false => simp [Exit.ofOutcome]
        | aborted => simp [Exit.ofOutcome]
        | fuel => exact absurd rfl h

/-- `cmd_join` always ends: it returns or the process is aborted. -/
theorem cmd_join_total (E : Env) (S : Session) : (cmd_join E S).1 ≠ Exit.fuel := by
  unfold cmd_join
  by_cases h1 : E.argc > 2
  · simp [h1]
  by_cases h2 : E.mkdir_confdir_ok = true
  swap
  · simp [h1, h2]
  cases hr : read_invitation E with
  | none => simp [h1, h2]
  | some inv =>
    cases hp : parse_url E.b64decode inv with
    | none => simp [h1, h2, hp]
    | some u =>
      simp only [h1, h2, hp, Bool.not_true, Bool.false_eq_true, ↓reduceIte]
      exact join_url_total E u _

/-! ## When the join succeeds -/

/-- When every file can be opened and every `Name` directive from the cursor on
names a valid node other than `name`, the second loop of `finalize_join` reaches
the end of the data. -/
theorem secondary_chunks_valid (check_id fopen_ok : List Char → Bool)
    (name hosts_dir : List Char) (hfo : ∀ p, fopen_ok p = true) :
    ∀ (fuel : Nat) (ls : List (List Char)) (c : Cursor) (files : List (List Char × List Char)),
      plines c.p = ls → (∀ l ∈ ls, line_ok l) → ls.length + 1 < fuel →
      (∀ l, c.l = some l → strcasecmp l (cs "Name") = false) →
      (c.l ≠ none → check_id c.value = true ∧ c.value ≠ name) →
      (∀ N ∈ ls, is_name N = true →
        check_id (split_directive N).2 = true ∧ (split_directive N).2 ≠ name) →
      ∃ more, secondary_chunks check_id fopen_ok name hosts_dir fuel c files
        = Secondary.done (files ++ more) := by
  intro fuel
  induction fuel with
  | zero => intro ls c files _ _ hf; omega
  | succ k ih =>
    intro ls c files hp hok hf hl hc hN
    rw [secondary_chunks]
    cases hcl : c.l with
    | none => exact ⟨[], by simp⟩
    | some l =>
      obtain ⟨hid, hvn⟩ := hc (by simp [hcl])
      have hv : strcmp c.value name = true := by simpa [strcmp] using hvn
      simp only [hl l hcl, Bool.false_eq_true, if_false, hid, hv, hfo, Bool.not_true]
      obtain ⟨c1, h1, h2, h3⟩ := copy_chunk_spec ls k c.p c.value [] hp hok (by omega)
      rw [h1]
      simp only
      cases hd : ls.dropWhile (fun l => !is_name l) with
      | nil =>
        rw [hd] at h3 h2
        simp only at h3
        obtain ⟨j, rfl⟩ : ∃ j, k = j + 1 := ⟨k - 1, by omega⟩
        refine ⟨[(hosts_dir ++ SLASH ++ c.value, [] ++ chunk_text ls)], ?_⟩
        rw [secondary_chunks, h3]
      | cons N rest =>
        rw [hd] at h3 h2
        simp only [List.tail_cons] at h3 h2
        obtain ⟨hNq, hNmem, hlen, hrest, _⟩ := dropWhile_cons_facts _ ls N rest hd
        have hNn : is_name N = true := by simpa using hNq
        obtain ⟨more, hres⟩ := ih rest c1
          (files ++ [(hosts_dir ++ SLASH ++ c.value, [] ++ chunk_text ls)]) h2
          (fun x hx => hok x (hrest x hx)) (by omega)
          (by
            intro l' hl'
            rw [h3.1] at hl'
            simp only [Option.some.injEq] at hl'
            rw [← hl']
            simpa [is_name] using hNn)
          (by intro _; rw [h3.2]; exact hN N hNmem hNn)
          (fun x hx => hN x (hrest x hx))
        refine ⟨(hosts_dir ++ SLASH ++ c.value, [] ++ chunk_text ls) :: more, ?_⟩
        rw [hres]
        simp

/-- With working key generators `provision_keys` reports success. -/
theorem provision_keys_succeeds (E : JoinEnv) (confbase filename fh : List Char)
    (r : JoinResult) (hg : E.ecdsa_generate_ok = true) (hw : E.ecdsa_write_ok = true)
    (hk : E.b64key ≠ none) :
    (provision_keys E confbase filename fh r).outcome = Outcome.ret true := by
  cases hb : E.b64key with
  | none => exact absurd hb hk
  | some k => simp [provision_keys, hg, hw, hb]

/-- On a text whose lines the scanner accepts, with every file openable, every
secondary chunk naming a valid node other than `name` and working key generators,
`write_chunks` reports success. -/
theorem write_chunks_succeeds (E : JoinEnv) (name confbase data : List Char) (r : JoinResult)
    (hok : ∀ l ∈ lines data, line_ok l) (hfo : ∀ p, E.fopen_ok p = true)
    (hsec : ∀ N ∈ (lines data).dropWhile (fun l => !is_foreign_name name l),
      is_name N = true →
        E.check_id (split_directive N).2 = true ∧ (split_directive N).2 ≠ name)
    (hg : E.ecdsa_generate_ok = true) (hw : E.ecdsa_write_ok = true)
    (hk : E.b64key ≠ none) :
    (write_chunks E name confbase (some data) r).outcome = Outcome.ret true := by
  have hlen := lines_length_le data
  obtain ⟨c, hc1, hc2, hc3⟩ := first_chunk_spec E.vars name (lines data) (data.length + 2)
    (some data) [] (cs "Name = " ++ name ++ cs "\n", []) rfl hok (by omega)
  have hlen2 : ((lines data).dropWhile (fun l => !is_foreign_name name l)).tail.length + 1
      < data.length + 2 := by
    have := (List.dropWhile_sublist (fun l => !is_foreign_name name l) (l := lines data)).length_le
    simp only [List.length_tail]
    omega
  have hsec2 : ∃ files, secondary_chunks E.check_id E.fopen_ok name
      (confbase ++ SLASH ++ cs "hosts") (data.length + 2) c [] = Secondary.done files := by
    cases hd : (lines data).dropWhile (fun l => !is_foreign_name name l) with
    | nil =>
      rw [hd] at hc3
      simp only at hc3
      exact ⟨[], by rw [secondary_chunks, hc3]⟩
    | cons F rest =>
      rw [hd] at hc3 hc2 hsec
      simp only at hc3
      simp only [List.tail_cons] at hc2
      obtain ⟨hFq, _, _, hrest, _⟩ := dropWhile_cons_facts _ _ F rest hd
      have hFn : is_name F = true := by
        simp only [Bool.not_eq_false', is_foreign_name, Bool.and_eq_true] at hFq
        exact hFq.1
      rw [hd] at hlen2
      simp only [List.tail_cons] at hlen2
      obtain ⟨more, hres⟩ := secondary_chunks_valid E.check_id E.fopen_ok name
        (confbase ++ SLASH ++ cs "hosts") hfo (data.length + 2) rest c [] hc2
        (fun x hx => hok x (hrest x hx)) hlen2
        (by
          intro l hl
          rw [hc3.1] at hl
          simp only [Option.some.injEq] at hl
          rw [← hl]
          simpa [is_name] using hFn)
        (by intro _; rw [hc3.2]; exact hsec F (by simp) hFn)
        (fun x hx => hsec x (by simp [hx]))
      exact ⟨[] ++ more, hres⟩
  obtain ⟨files, hfiles⟩ := hsec2
  unfold write_chunks
  simp only [hfo, Bool.not_true, Bool.false_eq_true, ↓reduceIte, Option.getD_some, hc1, hfiles]
  exact provision_keys_succeeds E _ _ _ _ hg hw hk

/-- When the second loop of `finalize_join` reaches the end of the data, every
`Name` directive from the cursor on named a valid node other than `name`. -/
theorem secondary_chunks_done_valid (check_id fopen_ok : List Char → Bool)
    (name hosts_dir : List Char) :
    ∀ (fuel : Nat) (ls : List (List Char)) (c : Cursor)
      (files res : List (List Char × List Char)),
      plines c.p = ls → (∀ l ∈ ls, line_ok l) → ls.length + 1 < fuel →
      (∀ l, c.l = some l → strcasecmp l (cs "Name") = false) →
      (c.l = none → ls = []) →
      secondary_chunks check_id fopen_ok name hosts_dir fuel c files = Secondary.done res →
      (c.l ≠ none → check_id c.value = true ∧ c.value ≠ name) ∧
      (∀ N ∈ ls, is_name N = true →
        check_id (split_directive N).2 = true ∧ (split_directive N).2 ≠ name) := by
  intro fuel
  induction fuel with
  | zero => intro ls c files res _ _ hf; omega
  | succ k ih =>
    intro ls c files res hp hok hf hl hnil hdone
    rw [secondary_chunks] at hdone
    obtain ⟨c1, h1, h2, h3⟩ := copy_chunk_spec ls k c.p c.value [] hp hok (by omega)
    cases hcl : c.l with
    | none =>
      rw [hnil hcl]
      simp
    | some l =>
      rw [hcl] at hdone
      simp only [hl l hcl, Bool.false_eq_true, if_false] at hdone
      by_cases hid : check_id c.value = true
      swap
      · have hid' : check_id c.value = false := by simpa using hid
        simp only [hid', Bool.not_false, ↓reduceIte] at hdone
        cases hdone
      simp only [hid, Bool.not_true, Bool.false_eq_true, if_false] at hdone
      by_cases hv : strcmp c.value name = true
      swap
      · have hv' : strcmp c.value name = false := by simpa using hv
        simp only [hv', Bool.not_false, ↓reduceIte] at hdone
        cases hdone
      have hvn : c.value ≠ name := by simpa [strcmp] using hv
      simp only [hv, Bool.not_true, Bool.false_eq_true, if_false] at hdone
      by_cases hfo : fopen_ok (hosts_dir ++ SLASH ++ c.value) = true
      swap
      · have hfo' : fopen_ok (hosts_dir ++ SLASH ++ c.value) = false := by simpa using hfo
        simp only [hfo', Bool.not_false, ↓reduceIte] at hdone
        cases hdone
      simp only [hfo, Bool.not_true, Bool.false_eq_true, if_false, h1] at hdone
      refine ⟨fun _ => ⟨hid, hvn⟩, ?_⟩
      cases hd : ls.dropWhile (fun l => !is_name l) with
      | nil =>
        intro x hx hn
        have := (List.dropWhile_eq_nil_iff.mp hd) x hx
        simp [hn] at this
      | cons N rest =>
        rw [hd] at h3 h2
        simp only [List.tail_cons] at h3 h2
        obtain ⟨hNq, hNmem, hlen, hrest, hcover⟩ := dropWhile_cons_facts _ ls N rest hd
        have hNn : is_name N = true := by simpa using hNq
        obtain ⟨hc1, hr1⟩ := ih rest c1 _ res h2
          (fun x hx => hok x (hrest x hx)) (by omega)
          (by
            intro l' hl'
            rw [h3.1] at hl'
            simp only [Option.some.injEq] at hl'
            rw [← hl']
            simpa [is_name] using hNn)
          (by intro hn; rw [h3.1] at hn; exact absurd hn (by simp)) hdone
        intro x hx hn
        rcases hcover x hx with hq | rfl | hxr
        · simp [hn] at hq
        · have := hc1 (by simp [h3.1])
          rw [h3.2] at this
          exact this
        · exact hr1 x hxr hn

/-- When `provision_keys` reports success the key generators worked. -/
theorem provision_keys_true (E : JoinEnv) (confbase filename fh : List Char)
    (r : JoinResult) (hr : r.outcome = Outcome.ret false)
    (h : (provision_keys E confbase filename fh r).outcome = Outcome.ret true) :
    E.ecdsa_generate_ok = true ∧ E.ecdsa_write_ok = true ∧ E.b64key ≠ none := by
  by_cases hg : E.ecdsa_generate_ok = true
  swap
  · have hg' : E.ecdsa_generate_ok = false := by simpa using hg
    simp [provision_keys, hg', hr] at h
  cases hb : E.b64key with
  | none => simp [provision_keys, hg, hb, hr] at h
  | some k =>
    by_cases hw : E.ecdsa_write_ok = true
    · exact ⟨hg, hw, by simp⟩
    · have hw' : E.ecdsa_write_ok = false := by simpa using hw
      simp [provision_keys, hg, hb, hw', hr] at h

/-- When `write_chunks` reports success on a text whose lines the scanner accepts,
every secondary chunk named a valid node other than `name` and the key generators
worked. -/
theorem write_chunks_true (E : JoinEnv) (name confbase data : List Char) (r : JoinResult)
    (hok : ∀ l ∈ lines data, line_ok l) (hfo : ∀ p, E.fopen_ok p = true)
    (hr : r.outcome = Outcome.ret false)
    (h : (write_chunks E name confbase (some data) r).outcome = Outcome.ret true) :
    (∀ N ∈ (lines data).dropWhile (fun l => !is_foreign_name name l),
      is_name N = true →
        E.check_id (split_directive N).2 = true ∧ (split_directive N).2 ≠ name) ∧
    E.ecdsa_generate_ok = true ∧ E.ecdsa_write_ok = true ∧ E.b64key ≠ none := by
  have hlen := lines_length_le data
  obtain ⟨c, hc1, hc2, hc3⟩ := first_chunk_spec E.vars name (lines data) (data.length + 2)
    (some data) [] (cs "Name = " ++ name ++ cs "\n", []) rfl hok (by omega)
  have hlen2 : ((lines data).dropWhile (fun l => !is_foreign_name name l)).tail.length + 1
      < data.length + 2 := by
    have := (List.dropWhile_sublist (fun l => !is_foreign_name name l) (l := lines data)).length_le
    simp only [List.length_tail]
    omega
  unfold write_chunks at h
  simp only [hfo, Bool.not_true, Bool.false_eq_true, ↓reduceIte, Option.getD_some, hc1] at h
  cases hs : secondary_chunks E.check_id E.fopen_ok name (confbase ++ SLASH ++ cs "hosts")
      (data.length + 2) c [] with
  | abort files => rw [hs] at h; simp at h
  | fuel => rw [hs] at h; simp at h
  | fail files => rw [hs] at h; simp [hr] at h
  | done files =>
    rw [hs] at h
    simp only at h
    refine ⟨?_, provision_keys_true E _ _ _ _ (by exact hr) h⟩
    cases hd : (lines data).dropWhile (fun l => !is_foreign_name name l) with
    | nil => simp
    | cons F rest =>
      rw [hd] at hc3 hc2 hlen2
      simp only at hc3
      simp only [List.tail_cons] at hc2 hlen2
      obtain ⟨hFq, _, _, hrest, _⟩ := dropWhile_cons_facts _ _ F rest hd
      have hFn : is_name F = true := by
        simp only [Bool.not_eq_false', is_foreign_name, Bool.and_eq_true] at hFq
        exact hFq.1
      obtain ⟨hv1, hv2⟩ := secondary_chunks_done_valid E.check_id E.fopen_ok name
        (confbase ++ SLASH ++ cs "hosts") (data.length + 2) rest c [] files hc2
        (fun x hx => hok x (hrest x hx)) hlen2
        (by
          intro l hl
          rw [hc3.1] at hl
          simp only [Option.some.injEq] at hl
          rw [← hl]
          simpa [is_name] using hFn)
        (by intro hn; rw [hc3.1] at hn; exact absurd hn (by simp)) hs
      intro N hN hNn
      simp only [List.mem_cons] at hN
      rcases hN with rfl | hN
      · have := hv1 (by simp [hc3.1])
        rw [hc3.2] at this
        exact this
      · exact hv2 N hN hNn

/-! ## C1 -/

/-- `cmd_join` when the digest comparison is reached and the digests differ. -/
theorem cmd_join_mismatch (E : Env) (S : Session) (u : Url) (line hishash : List Char)
    (h : reaches_pinning E u line)
    (hd : E.digest_create (line.drop 2) = some hishash)
    (hne : hishash.take 18 ≠ u.hash.take 18) :
    cmd_join E S =
      (Exit.ret 1, { session := { S with data := none, datalen := 0, hash := u.hash,
                                         cookie := u.cookie },
                     events := [Event.keygen, Event.str2addrinfo u.address u.port,
                       Event.socket, Event.connect,
                       Event.sendline (cs "0 ?" ++ E.b64key ++ cs " "
                         ++ (Nat.repr E.PROT_MAJOR).toList ++ cs ".1")] }) := by
  obtain ⟨h1, h2, h3, h4, h5, h6, h7, h8, h9, h10, h11⟩ := h
  cases hr : read_invitation E with
  | none => rw [hr] at h3; simp at h3
  | some inv =>
    rw [hr] at h3
    have h3' : parse_url E.b64decode inv = some u := by simpa using h3
    unfold cmd_join
    simp only [hr, h3', h2, show ¬ E.argc > 2 by omega, Bool.not_true, Bool.false_eq_true,
      ↓reduceIte]
    unfold join_url
    simp only [h4, h5, h6, h7, h9, h10, h11, hd, show ¬ (hello E).length ≥ 4096 by omega,
      Bool.not_true, Bool.false_eq_true, ↓reduceIte, List.nil_append, List.cons_append,
      List.singleton_append, ne_eq, hne, not_false_eq_true]

theorem join_url_started (E : Env) (u : Url) (st : State)
    (hst : Event.sptps_start ∉ st.events)
    (h : Event.sptps_start ∈ (join_url E u st).2.events) :
    E.ecdsa_generate_ok = true ∧ E.str2addrinfo_ok u.address u.port = true ∧
    E.socket_ok = true ∧ E.connect_ok = true ∧ (hello E).length < 4096 ∧
    E.sendline_ok = true ∧ E.digest_open_ok = true ∧
    ∃ line hishash, greeting E = some line ∧ E.digest_create (line.drop 2) = some hishash ∧
      hishash.take 18 = st.session.hash.take 18 := by
  unfold join_url at h
  by_cases h4 : E.ecdsa_generate_ok = true
  swap
  · simp [h4, hst] at h
  by_cases h5 : E.str2addrinfo_ok u.address u.port = true
  swap
  · simp [h4, h5, hst] at h
  by_cases h6 : E.socket_ok = true
  swap
  · simp [h4, h5, h6, hst] at h
  by_cases h7 : E.connect_ok = true
  swap
  · simp [h4, h5, h6, h7, hst] at h
  by_cases h8 : (hello E).length < 4096
  swap
  · simp [h4, h5, h6, h7, show (hello E).length ≥ 4096 by omega, hst] at h
  by_cases h9 : E.sendline_ok = true
  swap
  · simp [h4, h5, h6, h7, show ¬ (hello E).length ≥ 4096 by omega, h9, hst] at h
  cases hg : greeting E with
  | none => simp [h4, h5, h6, h7, show ¬ (hello E).length ≥ 4096 by omega, h9, hg, hst] at h
  | some line =>
    by_cases h11 : E.digest_open_ok = true
    swap
    · simp [h4, h5, h6, h7, show ¬ (hello E).length ≥ 4096 by omega, h9, hg, h11, hst] at h
    cases hd : E.digest_create (line.drop 2) with
    | none =>
      simp [h4, h5, h6, h7, show ¬ (hello E).length ≥ 4096 by omega, h9, hg, h11, hd, hst] at h
    | some hishash =>
      by_cases he : hishash.take 18 = st.session.hash.take 18
      · exact ⟨h4, h5, h6, h7, h8, h9, h11, line, hishash, rfl, hd, he⟩
      · simp [h4, h5, h6, h7, show ¬ (hello E).length ≥ 4096 by omega, h9, hg, h11, hd, he,
          hst] at h

/-- C3. Whatever the digest function: when `cmd_join` gets to the digest
comparison and the 18-byte digest of the fingerprint text of the acknowledgement
line differs from the 18-byte hash of the URL, it returns 1 and its trace has no
`sptps_start`, no cookie record and no `finalize_join`; and whenever the trace
has `sptps_start`, the comparison was reached with equal 18-byte values. -/
theorem C3_fingerprint_pinning (E : Env) (S : Session) :
    (∀ u line hishash, reaches_pinning E u line →
      E.digest_create (line.drop 2) = some hishash → hishash.take 18 ≠ u.hash.take 18 →
      (cmd_join E S).1 = Exit.ret 1 ∧
      Event.sptps_start ∉ (cmd_join E S).2.events ∧
      (∀ c, Event.send_cookie c ∉ (cmd_join E S).2.events) ∧
      (∀ r, Event.finalize_join r ∉ (cmd_join E S).2.events)) ∧
    (Event.sptps_start ∈ (cmd_join E S).2.events →
      ∃ u line hishash, reaches_pinning E u line ∧
        E.digest_create (line.drop 2) = some hishash ∧ hishash.take 18 = u.hash.take 18) := by
  constructor
  · intro u line hishash hr hd hne
    rw [cmd_join_mismatch E S u line hishash hr hd hne]
    simp
  · intro h
    unfold cmd_join at h
    by_cases h1 : E.argc > 2
    · simp [h1] at h
    by_cases h2 : E.mkdir_confdir_ok = true
    swap
    · simp [h1, h2] at h
    cases hr : read_invitation E with
    | none => simp [h1, h2, hr] at h
    | some inv =>
      cases hp : parse_url E.b64decode inv with
      | none => simp [h1, h2, hr, hp] at h
      | some u =>
        simp only [h1, h2, hr, hp, Bool.not_true, Bool.false_eq_true, ↓reduceIte] at h
        obtain ⟨h4, h5, h6, h7, h8, h9, h11, line, hishash, hg, hd, he⟩ :=
          join_url_started E u _ (by simp) h
        exact ⟨u, line, hishash,
          ⟨by omega, h2, by simp [hr, hp], h4, h5, h6, h7, h8, h9, hg, h11⟩, hd, he⟩

/-- Witness for C3: the sample client when the digest of the peer's key is not
the hash of the URL. -/
theorem C3_fingerprint_pinning_witness :
    (cmd_join { sample_client with digest_create := fun _ => some (List.replicate 18 'x') }
        stale_session).1 = Exit.ret 1 ∧
      Event.sptps_start ∉
        (cmd_join { sample_client with digest_create := fun _ => some (List.replicate 18 'x') }
          stale_session).2.events ∧
      (∀ c, Event.send_cookie c ∉
        (cmd_join { sample_client with digest_create := fun _ => some (List.replicate 18 'x') }
          stale_session).2.events) ∧
      (∀ r, Event.finalize_join r ∉
        (cmd_join { sample_client with digest_create := fun _ => some (List.replicate 18 'x') }
          stale_session).2.events) :=
  (C3_fingerprint_pinning
      { sample_client with digest_create := fun _ => some (List.replicate 18 'x') }
      stale_session).1
    ⟨cs "host.example.org", cs "655", cs "QUJDREVGR0hJSktMTU", cs "secret-cookie-1234"⟩
    (cs "4 QUJDREVGR0hJSktMTU5PUFFS") (List.replicate 18 'x')
    (by decide) (by decide) (by decide)

/-! ## C4 -/

/-- C4 (evaluation at the failing input). On a joiner without `-n` option, the
stream `Name = n`, `NetName = ../../tmp/x`: the `NetName` value is no valid
identifier, yet `finalize_join` calls `make_names()` with it, creates the
configuration root under it and completes the join. -/
theorem C4_netname_used_unvalidated :
    check_id (cs "../../tmp/x") = false ∧
    (finalize_join sample_env false
        (some (cs "Name = n\nNetName = ../../tmp/x\n"))).made_names
      = [some (cs "../../tmp/x")] ∧
    (finalize_join sample_env false
        (some (cs "Name = n\nNetName = ../../tmp/x\n"))).mkdirs
      = [cs "/etc/tinc/../../tmp/x", cs "/etc/tinc/../../tmp/x/hosts"] ∧
    (finalize_join sample_env false
        (some (cs "Name = n\nNetName = ../../tmp/x\n"))).tinc_conf
      = some (cs "/etc/tinc/../../tmp/x/tinc.conf", cs "Name = n\n") ∧
    (finalize_join sample_env false
        (some (cs "Name = n\nNetName = ../../tmp/x\n"))).outcome = Outcome.ret true := by
  decide

/-! ## C5 -/

theorem take_length_takeWhile {α : Type} (q : α → Bool) (l : List α) :
    l.take (l.takeWhile q).length = l.takeWhile q ∧
    l.drop (l.takeWhile q).length = l.dropWhile q := by
  induction l with
  | nil => simp
  | cons a l ih =>
    by_cases h : q a = true
    · simp [List.takeWhile, List.dropWhile, h, ih.1, ih.2]
    · simp [List.takeWhile, List.dropWhile, h]

theorem strcspn_single (s : List Char) (c : Char) :
    strcspn s [c] = (s.takeWhile (fun x => decide (x ≠ c))).length := by
  unfold strcspn
  have : (fun x => !([c].contains x)) = (fun x => decide (x ≠ c)) := by
    funext x
    simp
  rw [this]

theorem strchr_eq_none {s : List Char} {c : Char} (h : c ∉ s) : strchr s c = none := by
  unfold strchr
  rw [strcspn_single]
  have : s.takeWhile (fun x => decide (x ≠ c)) = s := by
    rw [List.takeWhile_eq_self_iff]
    intro x hx
    have : x ≠ c := fun hxc => h (hxc ▸ hx)
    simp [this]
  rw [this]
  simp

theorem strchr_eq_some {s : List Char} {c : Char} {i : Nat} (h : strchr s c = some i) :
    s.take i = s.takeWhile (fun x => decide (x ≠ c)) ∧
    s.drop (i + 1) = (s.dropWhile (fun x => decide (x ≠ c))).drop 1 := by
  unfold strchr at h
  split at h
  · simp only [Option.some.injEq] at h
    rw [strcspn_single] at h
    subst h
    have := take_length_takeWhile (fun x => decide (x ≠ c)) s
    refine ⟨this.1, ?_⟩
    rw [← this.2, List.drop_drop]
  · simp at h

/-- C5. For every invitation string that has no `/`, or whose text after the
first `/` is not exactly 48 characters long, or whose address starts with `[`
and has no `]`, or for which `b64decode` fails at the first or at the second
24-character half of that text, `cmd_join` returns 1 and has called nothing
before: no key generation, no address resolution, no socket, no connection. -/
theorem C5_invalid_url_rejected_before_network (E : Env) (S : Session) (inv : List Char)
    (hinv : read_invitation E = some inv)
    (hbad : '/' ∉ inv ∨ (url_code inv).length ≠ 48 ∨
      ((url_address inv).head? = some '[' ∧ ']' ∉ url_address inv) ∨
      E.b64decode (url_code inv) 18 = none ∨
      E.b64decode ((url_code inv).drop 24) 18 = none) :
    (cmd_join E S).1 = Exit.ret 1 ∧ (cmd_join E S).2.events = [] := by
  have hparse : parse_url E.b64decode inv = none := by
    simp only [url_code, url_address] at hbad
    unfold parse_url
    cases hs : strchr inv '/' with
    | none => rfl
    | some i =>
      obtain ⟨ht, hd⟩ := strchr_eq_some hs
      have hmem : '/' ∈ inv := by
        by_contra hc
        rw [strchr_eq_none hc] at hs
        exact absurd hs (by simp)
      simp only
      rw [ht, hd]
      by_cases hl : ((inv.dropWhile (fun c => decide (c ≠ '/'))).drop 1).length ≠ 48
      · rw [if_pos hl]
      rw [if_neg hl]
      rcases hbad with hb | hb | hb | hb | hb
      · exact absurd hmem hb
      · exact absurd hb hl
      · have hnot : ']' ∉ (inv.takeWhile (fun c => decide (c ≠ '/'))).drop 1 :=
          fun hm => hb.2 (List.mem_of_mem_drop hm)
        simp only [hb.1, ↓reduceIte, strchr_eq_none hnot]
      · split
        · rfl
        · simp only [hb]
      · split
        · rfl
        · simp only [hb]
          split <;> rfl
  unfold cmd_join
  simp only [hinv, hparse]
  by_cases h1 : E.argc > 2
  · simp [h1]
  · by_cases h2 : E.mkdir_confdir_ok = true
    · simp [h1, h2]
    · simp [h1, h2]

/-- Witness for C5: the sample client given a URL whose encoded part lost its
last character. -/
theorem C5_invalid_url_witness :
    (cmd_join { sample_client with
        argv1 := cs "host.example.org/UVVKRFJFVkdSMGhKU2t0TVRVc2VjcmV0LWNvb2tpZS0xMjM" }
      stale_session).1 = Exit.ret 1 ∧
    (cmd_join { sample_client with
        argv1 := cs "host.example.org/UVVKRFJFVkdSMGhKU2t0TVRVc2VjcmV0LWNvb2tpZS0xMjM" }
      stale_session).2.events = [] :=
  C5_invalid_url_rejected_before_network
    { sample_client with
        argv1 := cs "host.example.org/UVVKRFJFVkdSMGhKU2t0TVRVc2VjcmV0LWNvb2tpZS0xMjM" }
    stale_session (cs "host.example.org/UVVKRFJFVkdSMGhKU2t0TVRVc2VjcmV0LWNvb2tpZS0xMjM")
    (by decide) (Or.inr (Or.inl (by decide)))

/-! ## C6 -/

theorem lines_append_line {l : List Char} (rest : List Char) (h : '\n' ∉ l) :
    lines (l ++ '\n' :: rest) = l :: lines rest := by
  induction l with
  | nil => simp [lines]
  | cons c l ih =>
    have hc : c ≠ '\n' := fun hc => h (by simp [hc])
    have hl : '\n' ∉ l := fun hm => h (by simp [hm])
    rw [List.cons_append, lines, if_neg hc, ih hl]

theorem lines_unlines {hl : List (List Char)} (h : ∀ l ∈ hl, '\n' ∉ l) :
    lines (unlines hl) = hl := by
  induction hl with
  | nil => rfl
  | cons l ls ih =>
    rw [unlines, lines_append_line _ (h l (by simp)), ih (fun x hx => h x (by simp [hx]))]

theorem split_directive_name (v : List Char)
    (h1 : v.head? ≠ some ' ') (h2 : v.head? ≠ some '\t') :
    split_directive (cs "Name = " ++ v) = (cs "Name", v) := by
  have e : cs "Name = " ++ v = 'N' :: 'a' :: 'm' :: 'e' :: ' ' :: '=' :: ' ' :: v := rfl
  rw [e]
  cases v with
  | nil => decide
  | cons c v =>
    have hc1 : c ≠ ' ' := fun h => h1 (by simp [h])
    have hc2 : c ≠ '\t' := fun h => h2 (by simp [h])
    simp [split_directive, strcspn, strspn, cs, List.takeWhile, hc1, hc2]

theorem split_directive_connectto (v : List Char) :
    (split_directive (cs "ConnectTo = " ++ v)).1 = cs "ConnectTo" := by
  have e : cs "ConnectTo = " ++ v
      = 'C' :: 'o' :: 'n' :: 'n' :: 'e' :: 'c' :: 't' :: 'T' :: 'o' :: ' ' :: '=' :: ' ' :: v := rfl
  rw [e]
  simp [split_directive, strcspn, cs, List.takeWhile]

theorem split_directive_netname (v : List Char) :
    (split_directive (cs "NetName = " ++ v)).1 = cs "NetName" := by
  have e : cs "NetName = " ++ v
      = 'N' :: 'e' :: 't' :: 'N' :: 'a' :: 'm' :: 'e' :: ' ' :: '=' :: ' ' :: v := rfl
  rw [e]
  simp [split_directive, strcspn, cs, List.takeWhile]

theorem secondary_single (check_id fopen_ok : List Char → Bool) (name hosts_dir : List Char)
    (fuel : Nat) (ls : List (List Char)) (c : Cursor) (l : List Char)
    (hp : plines c.p = ls) (hok : ∀ x ∈ ls, line_ok x) (hf : ls.length + 1 < fuel)
    (hl : c.l = some l) (hln : strcasecmp l (cs "Name") = false)
    (hid : check_id c.value = true) (hv : c.value ≠ name)
    (hfo : fopen_ok (hosts_dir ++ SLASH ++ c.value) = true)
    (hnn : ∀ x ∈ ls, is_name x = false) :
    secondary_chunks check_id fopen_ok name hosts_dir fuel c []
      = Secondary.done [(hosts_dir ++ SLASH ++ c.value, chunk_text ls)] := by
  obtain ⟨k, rfl⟩ : ∃ k, fuel = k + 1 := ⟨fuel - 1, by omega⟩
  obtain ⟨j, rfl⟩ : ∃ j, k = j + 1 := ⟨k - 1, by omega⟩
  have hv' : strcmp c.value name = true := by simpa [strcmp] using hv
  rw [secondary_chunks]
  simp only [hl, hln, hid, hv', hfo, Bool.not_true, Bool.false_eq_true, ↓reduceIte]
  obtain ⟨c1, h1, _, h3⟩ := copy_chunk_spec ls (j + 1) c.p c.value [] hp hok (by omega)
  have hd : ls.dropWhile (fun l => !is_name l) = [] := by
    rw [List.dropWhile_eq_nil_iff]
    intro x hx
    simp [hnn x hx]
  rw [hd] at h3
  simp only at h3
  rw [h1]
  simp only [List.nil_append]
  rw [secondary_chunks, h3]

theorem chunk_text_plain {ls : List (List Char)}
    (h : ∀ x ∈ ls, x ≠ SEPARATOR ∧ is_name x = false) : chunk_text ls = unlines ls := by
  induction ls with
  | nil => rfl
  | cons l ls ih =>
    have hl := h l (by simp)
    have hs : strcmp l SEPARATOR = true := by simpa [strcmp] using hl.1
    rw [chunk_text_cons ls hl.2, ih (fun x hx => h x (by simp [hx]))]
    simp [hs, unlines, cs]

theorem provision_keys_fields (E : JoinEnv) (confbase filename fh : List Char)
    (r : JoinResult) :
    (provision_keys E confbase filename fh r).tinc_conf = r.tinc_conf ∧
    (provision_keys E confbase filename fh r).secondary = r.secondary := by
  unfold provision_keys
  split
  · exact ⟨rfl, rfl⟩
  · split
    · exact ⟨rfl, rfl⟩
    · split <;> exact ⟨rfl, rfl⟩

theorem write_chunks_done (E : JoinEnv) (name confbase data : List Char) (r : JoinResult)
    (hfo : ∀ p, E.fopen_ok p = true) (c : Cursor) (out : List Char × List Char)
    (files : List (List Char × List Char))
    (h1 : first_chunk E.vars name (data.length + 2) (some data) []
      (cs "Name = " ++ name ++ cs "\n", []) = Loop.done c out)
    (h2 : secondary_chunks E.check_id E.fopen_ok name (confbase ++ SLASH ++ cs "hosts")
      (data.length + 2) c [] = Secondary.done files) :
    write_chunks E name confbase (some data) r =
      provision_keys E confbase (confbase ++ SLASH ++ cs "hosts" ++ SLASH ++ name) out.2
        { r with tinc_conf := some (confbase ++ SLASH ++ cs "tinc.conf", out.1),
                 host := some (confbase ++ SLASH ++ cs "hosts" ++ SLASH ++ name, out.2),
                 secondary := files } := by
  unfold write_chunks
  simp only [hfo, Bool.not_true, Bool.false_eq_true, ↓reduceIte, Option.getD_some, h1, h2]

/-- The lines of the record `cmd_invite` writes. -/
theorem invitation_record_lines (n m : List Char) (net : Option (List Char))
    (hl : List (List Char))
    (hpn : plain_name n) (hpm : plain_name m)
    (hnet : ∀ v ∈ net, '\n' ∉ v ∧ v.length < 1000)
    (hhl : ∀ l ∈ hl, '\n' ∉ l) :
    lines (invitation_record n net m (unlines hl)) =
      (cs "Name = " ++ n) ::
        ((match net with
          | none => []
          | some v => [cs "NetName = " ++ v])
          ++ (cs "ConnectTo = " ++ m) :: SEPARATOR :: (cs "Name = " ++ m) :: hl) := by
  have e : cs "\n" = ['\n'] := rfl
  have hrec : invitation_record n net m (unlines hl) =
      unlines ((cs "Name = " ++ n) ::
        ((match net with
          | none => []
          | some v => [cs "NetName = " ++ v])
          ++ (cs "ConnectTo = " ++ m) :: SEPARATOR :: (cs "Name = " ++ m) :: hl)) := by
    cases net <;> simp [invitation_record, unlines, e]
  rw [hrec]
  apply lines_unlines
  intro l hlmem
  have hN : '\n' ∉ cs "Name = " := by decide
  have hC : '\n' ∉ cs "ConnectTo = " := by decide
  have hT : '\n' ∉ cs "NetName = " := by decide
  have hS : '\n' ∉ SEPARATOR := by decide
  simp only [List.mem_cons, List.mem_append] at hlmem
  rcases hlmem with h | h | h | h | h | h
  · rw [h]; simp [hN, hpn.1]
  · cases net with
    | none => simp at h
    | some v =>
      simp only [List.mem_singleton] at h
      rw [h]; simp [hT, (hnet v rfl).1]
  · rw [h]; simp [hC, hpm.1]
  · rw [h]; exact hS
  · rw [h]; simp [hN, hpm.1]
  · exact hhl l h

theorem line_ok_of_prefix (key v : List Char) (c : Char) (rest : List Char)
    (hk : key = c :: rest) (hc : isprint c = true) (hlen : key.length + v.length < 1024) :
    line_ok (key ++ v) := by
  subst hk
  refine ⟨by simp only [LINE_SIZE, List.length_append, List.length_cons] at hlen ⊢; omega, ?_⟩
  intro x hx
  simp at hx
  rw [← hx]; exact hc

/-- C7 (evaluation at the failing input). For the own-host line
`Address = 2001:db8::1` (no port) `get_my_hostname` gives the bare literal,
although with a port it gives the bracketed form; the URL printed from the
bare literal is parsed by `cmd_join` as host `2001` and port `db8::1`. -/
theorem C7_ipv6_without_port_not_bracketed :
    get_my_hostname rstrip (some [cs "Address = 2001:db8::1\n"]) = some (cs "2001:db8::1") ∧
    get_my_hostname rstrip (some [cs "Address = 2001:db8::1 655\n"])
      = some (cs "[2001:db8::1]:655") ∧
    parse_url b64decode
        (invitation_url (cs "2001:db8::1") (cs "UVVKRFJFVkdSMGhKU2t0TVRV")
          (cs "c2VjcmV0LWNvb2tpZS0xMjM0"))
      = some ⟨cs "2001", cs "db8::1", cs "QUJDREVGR0hJSktMTU", cs "secret-cookie-1234"⟩ ∧
    parse_url b64decode
        (invitation_url (cs "[2001:db8::1]:655") (cs "UVVKRFJFVkdSMGhKU2t0TVRV")
          (cs "c2VjcmV0LWNvb2tpZS0xMjM0"))
      = some ⟨cs "2001:db8::1", cs "655", cs "QUJDREVGR0hJSktMTU", cs "secret-cookie-1234"⟩ := by
  decide

/-! ## C8 -/

/-- C8 (evaluation at the failing inputs). With `success` still set by an earlier
join of the same process, a join whose peer closes the connection right after
the greeting returns 0 although `finalize_join` was never called; and a join
that cannot read the invitation from standard input returns 0 as well. -/
theorem C8_returns_zero_without_finalize_join :
    (cmd_join sample_client stale_session).1 = Exit.ret 0 ∧
    (cmd_join sample_client stale_session).2.events
      = [Event.keygen, Event.str2addrinfo (cs "host.example.org") (cs "655"), Event.socket,
         Event.connect, Event.sendline (cs "0 ?dGhyb3dhd2F5 17.1"), Event.sptps_start,
         Event.sptps_stop] ∧
    (cmd_join { sample_client with argc := 1, stdin_line := none }
        { stale_session with success := false }).1 = Exit.ret 0 ∧
    (cmd_join { sample_client with argc := 1, stdin_line := none }
        { stale_session with success := false }).2.events = [] ∧
    (cmd_join sample_client { stale_session with success := false }).1 = Exit.ret 1 := by
  decide

/-! ## C9 -/

set_option maxRecDepth 100000 in
/-- C9 (evaluation at the failing input). The stream `Name = n`, `Mode = switch`,
a line of 1024 letters, `ConnectTo = m`: `finalize_join` returns true and sets
`success`; tinc.conf holds only what came before the oversized line. -/
theorem C9_oversized_line_completes_join :
    (finalize_join sample_env false (some (cs "Name = n\nMode = switch\n"
        ++ List.replicate 1024 'A' ++ cs "\nConnectTo = m\n"))).outcome = Outcome.ret true ∧
    (finalize_join sample_env false (some (cs "Name = n\nMode = switch\n"
        ++ List.replicate 1024 'A' ++ cs "\nConnectTo = m\n"))).success = true ∧
    (finalize_join sample_env false (some (cs "Name = n\nMode = switch\n"
        ++ List.replicate 1024 'A' ++ cs "\nConnectTo = m\n"))).tinc_conf
      = some (cs "/etc/tinc/tinc.conf", cs "Name = n\nMode = switch\n") := by
  decide

/-! ## C10 -/

/-- The sweep with any accumulator. -/
theorem gc_sweep_acc (now : Int) :
    ∀ (entries : List dirent) (acc : Nat × List (List Char)),
      gc_sweep now entries acc =
        (acc.1 + (entries.filter (fun e => decide (e.d_name.length = 24) &&
            (match e.st_mtime with
             | some mtime => decide (now - 604800 < mtime)
             | none => false))).length,
         acc.2 ++ (entries.filter (fun e => decide (e.d_name.length = 24) &&
            (match e.st_mtime with
             | some mtime => decide (mtime ≤ now - 604800)
             | none => false))).map (fun e => e.d_name)) := by
  intro entries
  induction entries with
  | nil => intro acc; simp [gc_sweep]
  | cons e rest ih =>
    intro acc
    rw [gc_sweep]
    by_cases hlen : e.d_name.length = 24
    · simp only [hlen, ne_eq, not_true_eq_false, ↓reduceIte]
      cases hst : e.st_mtime with
      | none => simp only; rw [ih]; simp [List.filter, hlen, hst]
      | some mtime =>
        simp only
        by_cases hd : now - 604800 < mtime
        · rw [if_pos hd, ih]
          have hd' : ¬ mtime ≤ now - 604800 := by omega
          simp [List.filter, hlen, hst, hd, hd']
          omega
        · rw [if_neg hd, ih]
          have hd' : mtime ≤ now - 604800 := by omega
          simp [List.filter, hlen, hst, hd, hd']
    · simp only [ne_eq, hlen, not_false_eq_true, ↓reduceIte]
      rw [ih]; simp [List.filter, hlen]

/-- C10 (counterexample). A record whose modification time is exactly
`now - 604800` is not strictly older than that, yet the sweep unlinks it and does
not count it. -/
theorem C10_counterexample_deadline_record_deleted :
    ¬ ((2000000 - 604800 : Int) < 2000000 - 604800) ∧
    gc_sweep 2000000 [⟨cs "c2VjcmV0LWNvb2tpZS0xMjM0", some (2000000 - 604800)⟩] (0, [])
      = (0, [cs "c2VjcmV0LWNvb2tpZS0xMjM0"]) := by
  decide

/-- C10 (amended). For every listing and every `now`, the sweep unlinks exactly
the records with a 24-character name whose `stat` succeeds with a modification
time not later than `now - 604800`, in listing order, and the count is the
number of records with a 24-character name whose `stat` succeeds with a later
modification time (so a record with time `now - 604800 + 1` is counted and
kept); records whose `stat` fails are neither unlinked nor counted. -/
theorem C10_gc_sweep (now : Int) (entries : List dirent) :
    (gc_sweep now entries (0, [])).2 =
      (entries.filter (fun e => decide (e.d_name.length = 24) &&
        (match e.st_mtime with
         | some mtime => decide (mtime ≤ now - 604800)
         | none => false))).map (fun e => e.d_name) ∧
    (gc_sweep now entries (0, [])).1 =
      (entries.filter (fun e => decide (e.d_name.length = 24) &&
        (match e.st_mtime with
         | some mtime => decide (now - 604800 < mtime)
         | none => false))).length ∧
    (∀ name, gc_sweep now [⟨name, some (now - 604800 + 1)⟩] (0, []) =
      (if name.length = 24 then 1 else 0, [])) := by
  refine ⟨?_, ?_, ?_⟩
  · rw [gc_sweep_acc]; simp
  · rw [gc_sweep_acc]; simp
  · intro name
    rw [gc_sweep_acc]
    by_cases h : name.length = 24
    · simp [List.filter, h]
    · simp [List.filter, h]

/-! ## C11 -/

/-- One type-0 record: the payload is appended and the callback returns true. -/
theorem invitation_receive_fragment (E : Env) (st : State) (msg : List Char) :
    invitation_receive E st 0 msg =
      (Outcome.ret true,
        { st with session :=
            { st.session with
              data := some (st.session.data.getD [] ++ msg)
              datalen := st.session.datalen + msg.length } }) := by
  have h : (0 : Nat) ≠ SPTPS_HANDSHAKE := by decide
  simp [invitation_receive, h.symm, h]

/-- C11. For every state reached so far and every run of type-0 records,
handled in the order received: every callback returns true, the accumulated
buffer afterwards is the buffer before followed by the payloads in that order,
`datalen` has grown by their total length (so it is the length of the buffer
whenever it was before), and nothing else changes. And a record whose type is
not the handshake notification, 0 or 1 makes `invitation_receive` return false
and leaves the whole state, buffer and `datalen` included, as it was. -/
theorem C11_fragments_accumulate_in_order (E : Env) :
    (∀ (payloads : List (List Char)) (st : State),
      (deliver E (payloads.map (fun msg => (0, msg))) st).1 = Outcome.ret true ∧
      (deliver E (payloads.map (fun msg => (0, msg))) st).2.session.data.getD []
        = st.session.data.getD [] ++ payloads.flatten ∧
      (deliver E (payloads.map (fun msg => (0, msg))) st).2.session.datalen
        = st.session.datalen + payloads.flatten.length ∧
      (st.session.datalen = (st.session.data.getD []).length →
        (deliver E (payloads.map (fun msg => (0, msg))) st).2.session.datalen
          = ((deliver E (payloads.map (fun msg => (0, msg))) st).2.session.data.getD []).length) ∧
      (deliver E (payloads.map (fun msg => (0, msg))) st).2.session.success
        = st.session.success ∧
      (deliver E (payloads.map (fun msg => (0, msg))) st).2.events = st.events) ∧
    (∀ (st : State) (type : Nat) (msg : List Char),
      type ≠ SPTPS_HANDSHAKE → type ≠ 0 → type ≠ 1 →
      invitation_receive E st type msg = (Outcome.ret false, st)) := by
  constructor
  · intro payloads
    induction payloads with
    | nil => intro st; simp [deliver]
    | cons msg rest ih =>
      intro st
      simp only [List.map_cons, deliver, invitation_receive_fragment]
      obtain ⟨h1, h2, h3, _, h5, h6⟩ := ih
        { st with session :=
            { st.session with
              data := some (st.session.data.getD [] ++ msg)
              datalen := st.session.datalen + msg.length } }
      refine ⟨h1, ?_, ?_, ?_, h5, h6⟩
      · rw [h2]; simp
      · rw [h3]; simp; omega
      · intro hinv
        rw [h2, h3]
        simp [hinv]
        omega
  · intro st type msg h1 h2 h3
    simp [invitation_receive, h1, h2, h3]

/-- Witness for C11: after a session reset, three fragments (one of them empty)
sent in a row and then a record of type 7. -/
theorem C11_fragments_witness :
    (deliver sample_client
        ([cs "Name = n\n", [], cs "Mode = switch\n"].map (fun msg => (0, msg)))
        ⟨{ stale_session with data := none, datalen := 0 }, []⟩).2.session.data
      = some (cs "Name = n\nMode = switch\n") ∧
    (deliver sample_client
        ([cs "Name = n\n", [], cs "Mode = switch\n"].map (fun msg => (0, msg)))
        ⟨{ stale_session with data := none, datalen := 0 }, []⟩).2.session.datalen = 23 ∧
    invitation_receive sample_client ⟨stale_session, []⟩ 7 (cs "x")
      = (Outcome.ret false, ⟨stale_session, []⟩) :=
  ⟨by decide, by decide,
   (C11_fragments_accumulate_in_order sample_client).2 ⟨stale_session, []⟩ 7 (cs "x")
     (by decide) (by decide) (by decide)⟩

/-! ## C12 -/

/-- `cmd_invite` once the checks and the sweep are behind it. -/
theorem cmd_invite_past_gc (E : InviteEnv) (S : Store) (hgc : past_gc E = true)
    (k : KeyStep) (hk : k = invite_key E (gc_sweep E.now S.records (0, [])).1 S.key_file) :
    ∃ myname, E.get_my_name = some myname ∧
      cmd_invite E S =
        (match k.key with
         | none =>
           InviteResult.mk (Exit.ret 1) (Store.mk k.key_file (swept E.now S.records))
             k.unlinked k.generated none none none none
         | some key =>
           invite_record E myname k key (Store.mk k.key_file (swept E.now S.records))) := by
  simp only [past_gc, Bool.and_eq_true, decide_eq_true_eq, Bool.not_eq_true',
    Option.isSome_iff_exists] at hgc
  obtain ⟨⟨⟨⟨⟨⟨⟨h1, h2⟩, ⟨myname, h3⟩⟩, h4⟩, h5⟩, h6⟩, h7⟩, h8⟩ := hgc
  refine ⟨myname, h3, ?_⟩
  have h1' : ¬ E.argc < 2 := by omega
  unfold cmd_invite
  simp only [h1', h2, h3, h4, h5, h6, h7, h8, Bool.not_true, Bool.false_eq_true, ↓reduceIte,
    ← hk]

/-- The fields of the result that `invite_record` takes over from the key step. -/
theorem invite_record_fields (E : InviteEnv) (myname : List Char) (k : KeyStep)
    (key : ecdsa_t) (S : Store) :
    (invite_record E myname k key S).key = some key ∧
    (invite_record E myname k key S).key_unlinked = k.unlinked ∧
    (invite_record E myname k key S).generated = k.generated ∧
    (invite_record E myname k key S).store.key_file = S.key_file ∧
    (∀ h, (invite_record E myname k key S).hash = some h → h = key_hash E key) := by
  unfold invite_record
  simp only
  split_ifs
  · exact ⟨rfl, rfl, rfl, rfl, fun h hh => by simp at hh⟩
  all_goals exact ⟨rfl, rfl, rfl, rfl, fun h hh => by simpa using hh.symm⟩

/-- C12 (counterexample). No outstanding invitation (the only record has
expired) and a key file that exists but does not parse: `cmd_invite` gets past
the sweep and does not return 1; it unlinks the file, generates a key, creates
the invitation file and returns 0. -/
theorem C12_counterexample_corrupt_key_replaced :
    past_gc sample_issuer = true ∧
    outstanding sample_issuer.now [⟨cs "bbbbbbbbbbbbbbbbbbbbbbbb", some (2000000 - 691200)⟩] = 0 ∧
    sample_issuer.ecdsa_read_pem_private_key (cs "garbage") = none ∧
    (cmd_invite sample_issuer
        ⟨some (cs "garbage"), [⟨cs "bbbbbbbbbbbbbbbbbbbbbbbb", some (2000000 - 691200)⟩]⟩).exit
      = Exit.ret 0 ∧
    (cmd_invite sample_issuer
        ⟨some (cs "garbage"), [⟨cs "bbbbbbbbbbbbbbbbbbbbbbbb", some (2000000 - 691200)⟩]⟩).created
      = some (cs "secret-cookie-1234______",
          cs "Name = node2\nNetName = vpn\nConnectTo = node1\n#---------------------------------------------------------------#\nName = node1\nAddress = 192.0.2.1\n") ∧
    (cmd_invite sample_issuer
        ⟨some (cs "garbage"), [⟨cs "bbbbbbbbbbbbbbbbbbbbbbbb", some (2000000 - 691200)⟩]⟩).store
      = ⟨some (cs "KEY fresh"), [⟨cs "secret-cookie-1234______", some 2000000⟩]⟩ := by
  decide

/-- C12 (amended). For every call of `cmd_invite` that gets past the sweep, on
every state of key file and invitation directory: when the outstanding count is
0, the key file is unlinked (whatever it holds), and a key left by the key step
was generated in this call and written to the key file; when the count is
positive and the key file exists, can be opened and parses, the key is the one
read from it, nothing is generated or unlinked and the file keeps its content;
when the count is positive and the key file exists but cannot be parsed,
`cmd_invite` returns 1, computes no hash, creates no invitation file and leaves
the directory as the sweep left it; and a hash is only ever computed from the
key the key step left. -/
theorem C12_ephemeral_key (E : InviteEnv) (S : Store) (hgc : past_gc E = true) :
    (outstanding E.now S.records = 0 →
      (cmd_invite E S).key_unlinked = true ∧
      ∀ key, (cmd_invite E S).key = some key →
        (cmd_invite E S).generated = true ∧ E.ecdsa_generate = some key ∧
        (cmd_invite E S).store.key_file = some (E.ecdsa_write_pem_private_key key)) ∧
    (0 < outstanding E.now S.records →
      ∀ content key, S.key_file = some content → E.key_open_denied = false →
        E.ecdsa_read_pem_private_key content = some key →
        (cmd_invite E S).key = some key ∧ (cmd_invite E S).generated = false ∧
        (cmd_invite E S).key_unlinked = false ∧
        (cmd_invite E S).store.key_file = some content) ∧
    (0 < outstanding E.now S.records →
      ∀ content, S.key_file = some content → E.ecdsa_read_pem_private_key content = none →
      (cmd_invite E S).exit = Exit.ret 1 ∧ (cmd_invite E S).created = none ∧
      (cmd_invite E S).hash = none ∧
      (cmd_invite E S).store.records = swept E.now S.records) ∧
    (∀ h, (cmd_invite E S).hash = some h →
      ∃ key, (cmd_invite E S).key = some key ∧ h = key_hash E key) := by
  obtain ⟨myname, _, hci⟩ := cmd_invite_past_gc E S hgc _ rfl
  rw [hci]
  unfold outstanding
  generalize (gc_sweep E.now S.records (0, [])).1 = count
  refine ⟨?_, ?_, ?_, ?_⟩
  · -- no outstanding invitation
    intro h0
    subst h0
    unfold invite_key key_file_at_open
    by_cases hd : E.key_open_denied = true
    · simp [hd]
    cases hg : E.ecdsa_generate with
    | none => simp [hd, hg]
    | some k =>
      by_cases hw : E.key_fopen_w_ok = true
      · simp only [hd, hg, hw, Bool.false_eq_true, ↓reduceIte, Bool.not_true, decide_True]
        have hf := invite_record_fields E myname
          ⟨some k, some (E.ecdsa_write_pem_private_key k), true, true⟩ k
          (Store.mk (some (E.ecdsa_write_pem_private_key k)) (swept E.now S.records))
        refine ⟨hf.2.1, ?_⟩
        intro key hkey
        rw [hf.1] at hkey
        simp only [Option.some.injEq] at hkey
        subst hkey
        exact ⟨hf.2.2.1, rfl, hf.2.2.2.1⟩
      · simp [hd, hg, hw]
  · -- outstanding invitations and a key file that parses
    intro hpos content key hkf hd hparse
    have hne : count ≠ 0 := by omega
    unfold invite_key key_file_at_open
    simp only [hne, hkf, hd, hparse, Bool.false_eq_true, ↓reduceIte, decide_False]
    have hf := invite_record_fields E myname ⟨some key, some content, false, false⟩ key
      (Store.mk (some content) (swept E.now S.records))
    exact ⟨hf.1, hf.2.2.1, hf.2.1, hf.2.2.2.1⟩
  · -- a key file that does not parse
    intro hpos content hkf hparse
    have hne : count ≠ 0 := by omega
    unfold invite_key key_file_at_open
    rw [if_neg hne, hkf]
    by_cases hd : E.key_open_denied = true
    · simp [hd]
    · simp [hd, hparse]
  · -- the hash
    intro h hh
    cases hk : (invite_key E count S.key_file).key with
    | none => simp [hk] at hh
    | some key =>
      simp only [hk] at hh ⊢
      have hf := invite_record_fields E myname (invite_key E count S.key_file) key
        (Store.mk (invite_key E count S.key_file).key_file (swept E.now S.records))
      exact ⟨key, hf.1, hf.2.2.2.2 h hh⟩

/-- Witness for C12 (amended): the sample inviter on a directory with one outstanding
invitation and an old key, and on a directory whose only record has expired
and whose key file does not parse. -/
theorem C12_ephemeral_key_witness :
    outstanding sample_issuer.now sample_store.records = 1 ∧
    ((cmd_invite sample_issuer sample_store).key = some ⟨cs "KEY old"⟩ ∧
      (cmd_invite sample_issuer sample_store).generated = false ∧
      (cmd_invite sample_issuer sample_store).key_unlinked = false ∧
      (cmd_invite sample_issuer sample_store).store.key_file = some (cs "KEY old")) ∧
    (cmd_invite sample_issuer
        ⟨some (cs "garbage"), [⟨cs "bbbbbbbbbbbbbbbbbbbbbbbb", some (2000000 - 691200)⟩]⟩).key_unlinked
      = true ∧
    (cmd_invite sample_issuer
        ⟨some (cs "garbage"), [⟨cs "bbbbbbbbbbbbbbbbbbbbbbbb", some (2000000 - 691200)⟩]⟩).store
      = ⟨some (cs "KEY fresh"), [⟨cs "secret-cookie-1234______", some 2000000⟩]⟩ ∧
    (cmd_invite sample_issuer
        ⟨some (cs "garbage"), [⟨cs "aaaaaaaaaaaaaaaaaaaaaaaa", some (2000000 - 86400)⟩]⟩).exit
      = Exit.ret 1 :=
  ⟨by decide,
   (C12_ephemeral_key sample_issuer sample_store (by decide)).2.1 (by decide)
     (cs "KEY old") ⟨cs "KEY old"⟩ rfl rfl (by decide),
   ((C12_ephemeral_key sample_issuer
      ⟨some (cs "garbage"), [⟨cs "bbbbbbbbbbbbbbbbbbbbbbbb", some (2000000 - 691200)⟩]⟩
      (by decide)).1 (by decide)).1,
   by decide,
   ((C12_ephemeral_key sample_issuer
      ⟨some (cs "garbage"), [⟨cs "aaaaaaaaaaaaaaaaaaaaaaaa", some (2000000 - 86400)⟩]⟩
      (by decide)).2.2.1 (by decide) (cs "garbage") rfl (by decide)).1⟩

end Invitation
